import Mathlib

/-!
Verification of the transsion-ota-prober repository.

Shallow embedding of the pure core of the program:
Python strings are modelled as `List Char`, Python bytes as `List Nat`,
`Optional[T]` as `Option`.  External collaborators (the network, the YAML
library, subprocesses, the filesystem) are modelled as explicit inputs;
their observable outcomes are given as parameters to the embedded functions
and the side effects the program would perform are returned as data.
-/

set_option maxRecDepth 4000

/-! ## Python string primitives

`isPyWs` is the set of characters Python's `str.strip()` / `re` `\s`
treat as whitespace (Unicode White_Space as used by `str.isspace`). -/

def isPyWs (c : Char) : Bool :=
  c == ' ' || c == '\t' || c == '\n' || c == '\r' || c == '\x0b' || c == '\x0c' ||
  c == '\x1c' || c == '\x1d' || c == '\x1e' || c == '\x1f' || c == '\x85' ||
  c == '\xa0' || c == ' ' || (' ' ≤ c && c ≤ ' ') ||
  c == ' ' || c == ' ' || c == ' ' || c == ' ' || c == '　'

/-- The line terminators recognised by Python's `str.splitlines`. -/
def isPyLineBreak (c : Char) : Bool :=
  c == '\n' || c == '\r' || c == '\x0b' || c == '\x0c' || c == '\x1c' ||
  c == '\x1d' || c == '\x1e' || c == '\x85' || c == ' ' || c == ' '

/-- Python `s.lstrip()` (no argument: strips whitespace). -/
def lstripWs (l : List Char) : List Char := l.dropWhile isPyWs

/-- Python `s.rstrip()`. -/
def rstripWs (l : List Char) : List Char := (l.reverse.dropWhile isPyWs).reverse

/-- Python `s.strip()`. -/
def stripWs (l : List Char) : List Char := rstripWs (lstripWs l)

/-- Python `s.lstrip(' ')` — strips spaces only. -/
def lstripSp (l : List Char) : List Char := l.dropWhile (· == ' ')

/-- Python `s.rstrip(' ')`. -/
def rstripSp (l : List Char) : List Char := (l.reverse.dropWhile (· == ' ')).reverse

/-- Python `len(line) - len(line.lstrip(' '))` — the indentation in spaces. -/
def countIndent (l : List Char) : Nat := (l.takeWhile (· == ' ')).length

/-- Python `s.partition(c)` for a one-character separator: splits at the
first occurrence; the `Bool` is whether the separator was found. -/
def partitionAt (c : Char) : List Char → List Char × Bool × List Char
  | [] => ([], false, [])
  | x :: xs =>
    if x = c then ([], true, xs)
    else
      let r := partitionAt c xs
      (x :: r.1, r.2.1, r.2.2)

/-- Python `s.split(c, 1)` restricted to the case used by the source:
`none` when the separator is absent (an `IndexError` on `[1]`). -/
def splitFirst (sep : Char) : List Char → Option (List Char × List Char)
  | [] => none
  | x :: xs =>
    if x = sep then some ([], xs)
    else (splitFirst sep xs).map (fun p => (x :: p.1, p.2))

/-- Python `s.split(c)` (full split; `""` splits to `[""]`). -/
def splitAll (sep : Char) : List Char → List (List Char)
  | [] => [[]]
  | x :: xs =>
    if x = sep then [] :: splitAll sep xs
    else
      match splitAll sep xs with
      | h :: t => (x :: h) :: t
      | [] => [[x]]

/-- Python slicing `s[:n]` where `n` may be negative. -/
def pySliceTo (l : List Char) (n : Int) : List Char :=
  if 0 ≤ n then l.take n.toNat
  else l.take (l.length - (-n).toNat)

/-! ## `modules/metadata.py`: `extract_incremental_from_fingerprint` -/

def extract_incremental_from_fingerprint (fp : List Char) : Option (List Char) :=
  if fp = [] then none
  else
    match splitFirst ':' fp with
    | none => none
    | some (_, sfx) =>
      let parts := splitAll '/' sfx
      if parts.length < 3 then none
      else
        let seg := parts.getD 2 []
        if seg = [] then none
        else
          match splitFirst ':' seg with
          | some (a, _) => some a
          | none => some seg

/-! ## `modules/manager.py`: `Config` and `Config.fingerprint` -/

structure Config where
  build_tag : List Char
  incremental : List Char
  android_version : List Char
  model : List Char
  device : List Char
  oem : List Char
  product : List Char
  variant : Option (List Char) := none
  variant_index : Option Int := none
deriving Repr, DecidableEq

def Config.fingerprint (c : Config) : List Char :=
  c.oem ++ ('/' :: c.product) ++ ('/' :: c.device) ++ (':' :: c.android_version) ++
    ('/' :: c.build_tag) ++ ('/' :: c.incremental) ++ (':' :: "user/release-keys".toList)

/-! ## `modules/update_checker.py`: `UpdateChecker._parse`

Settings entries carry protobuf `bytes` (`List Nat`).  `_parse` compares raw
bytes for the URL detection and decodes values with
`decode("utf-8", errors="ignore")`; entry names are decoded strictly and a
`UnicodeDecodeError` skips the title/description/size handling of that
entry.  Both decoders are modelled below; the fuel argument (instantiated
with the byte-string length, an upper bound on the number of decoding
steps) only makes the recursion structural. -/

def isCont (b : Nat) : Bool := 0x80 ≤ b && b ≤ 0xBF

/-- Allowed second byte after a three-byte lead (excludes overlongs and
surrogates, as CPython's UTF-8 decoder does). -/
def cont3ok (b b2 : Nat) : Bool :=
  if b = 0xE0 then 0xA0 ≤ b2 && b2 ≤ 0xBF
  else if b = 0xED then 0x80 ≤ b2 && b2 ≤ 0x9F
  else isCont b2

/-- Allowed second byte after a four-byte lead. -/
def cont4ok (b b2 : Nat) : Bool :=
  if b = 0xF0 then 0x90 ≤ b2 && b2 ≤ 0xBF
  else if b = 0xF4 then 0x80 ≤ b2 && b2 ≤ 0x8F
  else isCont b2

def utf8DecIgnoreAux : Nat → List Nat → List Char
  | 0, _ => []
  | _ + 1, [] => []
  | fuel + 1, b :: rest =>
    if b < 0x80 then Char.ofNat b :: utf8DecIgnoreAux fuel rest
    else if 0xC2 ≤ b && b ≤ 0xDF then
      match rest with
      | b2 :: rest2 =>
        if isCont b2 then
          Char.ofNat ((b - 0xC0) * 64 + (b2 - 0x80)) :: utf8DecIgnoreAux fuel rest2
        else utf8DecIgnoreAux fuel (b2 :: rest2)
      | [] => []
    else if 0xE0 ≤ b && b ≤ 0xEF then
      match rest with
      | b2 :: rest2 =>
        if cont3ok b b2 then
          match rest2 with
          | b3 :: rest3 =>
            if isCont b3 then
              Char.ofNat ((b - 0xE0) * 4096 + (b2 - 0x80) * 64 + (b3 - 0x80)) ::
                utf8DecIgnoreAux fuel rest3
            else utf8DecIgnoreAux fuel (b3 :: rest3)
          | [] => []
        else utf8DecIgnoreAux fuel (b2 :: rest2)
      | [] => []
    else if 0xF0 ≤ b && b ≤ 0xF4 then
      match rest with
      | b2 :: rest2 =>
        if cont4ok b b2 then
          match rest2 with
          | b3 :: rest3 =>
            if isCont b3 then
              match rest3 with
              | b4 :: rest4 =>
                if isCont b4 then
                  Char.ofNat ((b - 0xF0) * 262144 + (b2 - 0x80) * 4096 +
                    (b3 - 0x80) * 64 + (b4 - 0x80)) :: utf8DecIgnoreAux fuel rest4
                else utf8DecIgnoreAux fuel (b4 :: rest4)
              | [] => []
            else utf8DecIgnoreAux fuel (b3 :: rest3)
          | [] => []
        else utf8DecIgnoreAux fuel (b2 :: rest2)
      | [] => []
    else utf8DecIgnoreAux fuel rest

/-- `bytes.decode("utf-8", errors="ignore")`: invalid maximal subparts are
skipped and decoding continues. -/
def utf8DecodeIgnore (l : List Nat) : List Char := utf8DecIgnoreAux l.length l

def utf8DecStrictAux : Nat → List Nat → Option (List Char)
  | 0, l => if l.isEmpty then some [] else none
  | _ + 1, [] => some []
  | fuel + 1, b :: rest =>
    if b < 0x80 then (utf8DecStrictAux fuel rest).map (Char.ofNat b :: ·)
    else if 0xC2 ≤ b && b ≤ 0xDF then
      match rest with
      | b2 :: rest2 =>
        if isCont b2 then
          (utf8DecStrictAux fuel rest2).map (Char.ofNat ((b - 0xC0) * 64 + (b2 - 0x80)) :: ·)
        else none
      | [] => none
    else if 0xE0 ≤ b && b ≤ 0xEF then
      match rest with
      | b2 :: b3 :: rest3 =>
        if cont3ok b b2 && isCont b3 then
          (utf8DecStrictAux fuel rest3).map
            (Char.ofNat ((b - 0xE0) * 4096 + (b2 - 0x80) * 64 + (b3 - 0x80)) :: ·)
        else none
      | _ => none
    else if 0xF0 ≤ b && b ≤ 0xF4 then
      match rest with
      | b2 :: b3 :: b4 :: rest4 =>
        if cont4ok b b2 && isCont b3 && isCont b4 then
          (utf8DecStrictAux fuel rest4).map
            (Char.ofNat ((b - 0xF0) * 262144 + (b2 - 0x80) * 4096 +
              (b3 - 0x80) * 64 + (b4 - 0x80)) :: ·)
        else none
      | _ => none
    else none

/-- `bytes.decode("utf-8")` (strict): `none` models `UnicodeDecodeError`. -/
def utf8DecodeStrict (l : List Nat) : Option (List Char) := utf8DecStrictAux l.length l

/-- Python `sub in b` for byte strings: contiguous subsequence test. -/
def containsSeq (pat : List Nat) : List Nat → Bool
  | [] => pat.isEmpty
  | x :: t => pat.isPrefixOf (x :: t) || containsSeq pat t

/-- `modules/constants.py`: `OTA_URL_PREFIX` (a `bytes` literal). -/
def OTA_URL_PREFIX : List Nat := "https://android.googleapis.com/packages/ota".toList.map Char.toNat

/-- The `b"update_url"` settings key compared against raw entry names. -/
def UPDATE_URL_KEY : List Nat := "update_url".toList.map Char.toNat

/-- One name/value settings entry of the decoded check-in response
(`entry.name or b""` / `entry.value or b""`). -/
structure SettingEntry where
  name : List Nat
  value : List Nat
deriving Repr, DecidableEq

/-- The `info` dict built by `UpdateChecker._parse`.  The `timestamp` field
(the wall clock at parse time) is not modelled. -/
structure UpdateInfo where
  device : List Char
  found : Bool
  title : Option (List Char)
  description : Option (List Char)
  size : Option (List Char)
  url : Option (List Char)
deriving Repr, DecidableEq

def initInfo (model : List Char) : UpdateInfo :=
  { device := model, found := false, title := none, description := none,
    size := none, url := none }

/-- The first half of the `for entry in resp.setting` loop body of `_parse`:
URL detection on the raw bytes. -/
def parseUrlStep (info : UpdateInfo) (e : SettingEntry) : UpdateInfo :=
  if !info.found && (e.name == UPDATE_URL_KEY || containsSeq OTA_URL_PREFIX e.value) then
    let url := stripWs (utf8DecodeIgnore e.value)
    if url.isEmpty then info
    else { info with url := some url, found := true }
  else info

/-- The second half of the loop body: strict decode of the entry name and
the `update_title` / `update_description` / `update_size` cases. -/
def parseNamedStep (info1 : UpdateInfo) (e : SettingEntry) : UpdateInfo :=
  match utf8DecodeStrict e.name with
  | none => info1
  | some name =>
    if name = "update_title".toList then
      { info1 with title := some (stripWs (utf8DecodeIgnore e.value)) }
    else if name = "update_description".toList then
      { info1 with description := some (stripWs (utf8DecodeIgnore e.value)) }
    else if name = "update_size".toList then
      { info1 with size := some (utf8DecodeIgnore e.value) }
    else info1

/-- One iteration of the settings loop of `UpdateChecker._parse`. -/
def parseStep (info : UpdateInfo) (e : SettingEntry) : UpdateInfo :=
  parseNamedStep (parseUrlStep info e) e

/-- `UpdateChecker._parse`, as a fold of `parseStep` over the settings. -/
def checker_parse (model : List Char) (settings : List SettingEntry) : UpdateInfo :=
  settings.foldl parseStep (initInfo model)

/-- The condition under which an entry records the download URL: name is
exactly `update_url` or the value contains the OTA URL prefix, and the
stripped decoded value is nonempty. -/
def urlEntryMatch (e : SettingEntry) : Bool :=
  (e.name == UPDATE_URL_KEY || containsSeq OTA_URL_PREFIX e.value) &&
    !(stripWs (utf8DecodeIgnore e.value)).isEmpty

/-! ## `modules/telegram.py`: `TgNotify._truncate_desc`

`SENTENCE_BOUNDARY_RE = re.compile(r"\.\s+")`; `finditer` yields the
non-overlapping maximal matches and the code collects `match.end() - 1`,
i.e. the index of the last whitespace character of each match.  A match is
a `.` followed by a maximal nonempty whitespace run, so the collected
indices are exactly the ends of whitespace runs immediately preceded by a
period.  `sentEndsAux` walks the string once; its flag records whether the
current position sits inside a whitespace run opened right after a `.`.

Python compares integer indices against `effective_max_len * 0.6` (and
0.5/0.7/0.8) in binary floating point.  For the integer magnitudes
reachable here the rounded products never cross an integer, so the strict
comparisons coincide with the exact rational ones, which are modelled by
cross-multiplication (`10 * i > 6 * E`, etc.). -/

def sentEndsAux : List Char → Nat → Bool → List Nat
  | [], _, _ => []
  | c :: rest, i, s =>
    if isPyWs c then
      if s && (match rest with | [] => true | d :: _ => !isPyWs d) then
        i :: sentEndsAux rest (i + 1) s
      else sentEndsAux rest (i + 1) s
    else sentEndsAux rest (i + 1) (c == '.')

/-- The list `[m.end() - 1 for m in SENTENCE_BOUNDARY_RE.finditer(t)]`. -/
def sentence_endings (t : List Char) : List Nat := sentEndsAux t 0 false

/-- Python `t.rfind(pat)`: highest start index of an occurrence, else -1. -/
def rfindSeq (pat t : List Char) : Int :=
  match ((List.range (t.length + 1)).filter (fun i => pat.isPrefixOf (t.drop i))).getLast? with
  | some i => (i : Int)
  | none => -1

/-- The `link_text` appended by `_truncate_desc`. -/
def linkText (telegraph_url : Option (List Char)) : List Char :=
  match telegraph_url with
  | some u => "... <a href=\"".toList ++ u ++ "\">Read full changelogs</a>".toList
  | none => "...".toList

/-- `TgNotify.DESC_MAX_LEN`. -/
def DESC_MAX_LEN : Nat := 1500

/-- `effective_max_len = max_len - len(link_text) if telegraph_url else max_len`. -/
def effectiveMax (max_len : Int) (telegraph_url : Option (List Char)) : Int :=
  if telegraph_url.isSome then max_len - (linkText telegraph_url).length else max_len

/-- The paragraph / line / word fallback chain of `_truncate_desc`
(`last_paragraph` / `last_line` / `last_space` in the source). -/
def truncFallback (truncated : List Char) (E : Int) : List Char :=
  if 10 * rfindSeq ['\n', '\n'] truncated > 5 * E then
    pySliceTo truncated (rfindSeq ['\n', '\n'] truncated)
  else if 10 * rfindSeq ['\n'] truncated > 7 * E then
    pySliceTo truncated (rfindSeq ['\n'] truncated)
  else if 10 * rfindSeq [' '] truncated > 8 * E then
    pySliceTo truncated (rfindSeq [' '] truncated)
  else truncated

/-- The boundary selection of `_truncate_desc` (the `result` value before
the link text is appended). -/
def truncPick (truncated : List Char) (E : Int) : List Char :=
  match (sentence_endings truncated).getLast? with
  | some se => if 10 * (se : Int) > 6 * E then truncated.take (se + 1) else truncFallback truncated E
  | none => truncFallback truncated E

/-- `TgNotify._truncate_desc`. -/
def truncate_desc (desc : List Char) (max_len : Int) (telegraph_url : Option (List Char)) :
    List Char :=
  if (desc.length : Int) ≤ max_len then desc
  else
    truncPick (pySliceTo desc (effectiveMax max_len telegraph_url))
      (effectiveMax max_len telegraph_url) ++ linkText telegraph_url

/-- The cut point of the pre-link result is at a word boundary: the result
either ends in whitespace or is followed in the original description by a
whitespace character. -/
def descCutOk (desc r : List Char) : Prop :=
  (∃ c, r.getLast? = some c ∧ isPyWs c = true) ∨
  (∃ c, desc[r.length]? = some c ∧ isPyWs c = true)

/-- Some boundary of the respective kind lies past its threshold inside the
truncation window (the conditions of the four non-hard-cut branches). -/
def boundaryPastThreshold (t : List Char) (E : Int) : Prop :=
  (∃ se, (sentence_endings t).getLast? = some se ∧ 10 * (se : Int) > 6 * E) ∨
  10 * rfindSeq ['\n', '\n'] t > 5 * E ∨
  10 * rfindSeq ['\n'] t > 7 * E ∨
  10 * rfindSeq [' '] t > 8 * E

/-! ## `modules/manager.py`: `update_config_incremental`

`yaml.safe_load(raw_text)` is an external library call; its result is
passed in as the `parsed` parameter (`none` models a parse exception, the
code then treats `data = None`).  The values the function reads out of the
parse are modelled by `PyVal`.  File reads always yield `raw_text` and the
single `write_text` the function may perform is returned as data in
`UpdOut.written` rather than performed. -/

inductive PyVal where
  | str : List Char → PyVal
  | int : Int → PyVal
  | bool : Bool → PyVal
  | none : PyVal
  | list : List PyVal → PyVal
  | dict : List (List Char × PyVal) → PyVal

/-- Python `d[k]` presence lookup (`None` object for an absent key is
represented by `Option.none`; an explicit YAML `null` value is
`some PyVal.none`). -/
def dictGet (d : List (List Char × PyVal)) (k : List Char) : Option PyVal :=
  (d.find? (fun p => p.1 == k)).map Prod.snd

/-- Python `d.get(k, dflt)`. -/
def pyGetD (d : List (List Char × PyVal)) (k : List Char) (dflt : PyVal) : PyVal :=
  match dictGet d k with
  | some v => v
  | Option.none => dflt

/-- Python `v == s` for a `str` right operand: equal only when `v` is an
equal string (int/None/list operands compare unequal). -/
def pyEqStr (v : PyVal) (s : List Char) : Bool :=
  match v with
  | PyVal.str t => t == s
  | _ => false

def startsWithLit (pat l : List Char) : Bool := pat.isPrefixOf l

/-- The terminator split of `rewrite_line`: `'\r\n'`, `'\n'` or none. -/
def lineNewline (line : List Char) : List Char :=
  if ['\r', '\n'].isSuffixOf line then ['\r', '\n']
  else if ['\n'].isSuffixOf line then ['\n']
  else []

/-- The `body` local of `rewrite_line`. -/
def lineBody (line : List Char) : List Char :=
  if ['\r', '\n'].isSuffixOf line then line.dropLast.dropLast
  else if ['\n'].isSuffixOf line then line.dropLast
  else line

/-- `before_comment, sep, comment = body.partition('#')`. -/
def lineBeforeComment (line : List Char) : List Char := (partitionAt '#' (lineBody line)).1

def lineSep (line : List Char) : Bool := (partitionAt '#' (lineBody line)).2.1

def lineComment (line : List Char) : List Char := (partitionAt '#' (lineBody line)).2.2

/-- `key_part, _, value_part = before_comment.partition(':')`. -/
def lineKey (line : List Char) : List Char := (partitionAt ':' (lineBeforeComment line)).1

def lineHasColon (line : List Char) : Bool := (partitionAt ':' (lineBeforeComment line)).2.1

def lineValPart (line : List Char) : List Char := (partitionAt ':' (lineBeforeComment line)).2.2

/-- `value_prefix`: the leading run of spaces of the value part. -/
def lineValPad (line : List Char) : List Char := (lineValPart line).takeWhile (· == ' ')

/-- `value_core`. -/
def lineValCore (line : List Char) : List Char := (lineValPart line).dropWhile (· == ' ')

/-- `value_suffix`: the trailing run of spaces of the value core. -/
def lineValTail (line : List Char) : List Char :=
  (lineValCore line).drop (rstripSp (lineValCore line)).length

/-- `quote_char`, from `value_core_stripped = value_core.strip()`. -/
def lineQuote (line : List Char) : List Char :=
  if ['"'].isPrefixOf (stripWs (lineValCore line)) &&
      ['"'].isSuffixOf (stripWs (lineValCore line)) then ['"']
  else if ['\''].isPrefixOf (stripWs (lineValCore line)) &&
      ['\''].isSuffixOf (stripWs (lineValCore line)) then ['\'']
  else []

/-- The inner `rewrite_line` of `update_config_incremental`: preserve the
key, value padding, quote style, trailing spaces, comment and terminator,
replacing only the value token; a line without a `:` before any `#` is
returned unchanged. -/
def rewrite_line (line value : List Char) : List Char :=
  if lineHasColon line = false then line
  else
    lineKey line ++ ':' :: lineValPad line ++
      (lineQuote line ++ value ++ lineQuote line) ++ lineValTail line ++
      (if lineSep line then '#' :: lineComment line else []) ++ lineNewline line

/-- Python `str.splitlines(keepends=True)`.  The fuel (instantiated with
the string length) only makes the recursion structural. -/
def splitlinesAuxF : Nat → List Char → List Char → List (List Char)
  | _, [], acc => if acc.isEmpty then [] else [acc.reverse]
  | 0, l, acc => if (acc.reverse ++ l).isEmpty then [] else [acc.reverse ++ l]
  | fuel + 1, c :: rest, acc =>
    if isPyLineBreak c then
      if c = '\r' ∧ rest.head? = some '\n' then
        (acc.reverse ++ ['\r', '\n']) :: splitlinesAuxF fuel rest.tail []
      else (acc.reverse ++ [c]) :: splitlinesAuxF fuel rest []
    else splitlinesAuxF fuel rest (c :: acc)

def pySplitlinesKeep (s : List Char) : List (List Char) := splitlinesAuxF s.length s []

/-- Python `list.insert(idx, a)` (clamping at the end). -/
def listInsertAt : Nat → List Char → List (List Char) → List (List Char)
  | _, a, [] => [a]
  | 0, a, l => a :: l
  | n + 1, a, x :: l => x :: listInsertAt n a l

/-- The `while idx < len(lines)` scan of `find_incremental_line`, walking
the suffix of `lines` that starts at the current index. -/
def findIncLineAux : List (List Char) → Nat → Nat → Option Nat
  | [], _, _ => Option.none
  | line :: rest, idx, end_indent =>
    if countIndent line ≤ end_indent ∧ startsWithLit "- ".toList (stripWs line) then Option.none
    else if countIndent line ≤ end_indent ∧ stripWs line = [] then
      findIncLineAux rest (idx + 1) end_indent
    else if countIndent line ≤ end_indent ∧ stripWs line ≠ [] ∧
        ¬ startsWithLit "- ".toList (stripWs line) = true ∧
        ¬ startsWithLit "#".toList (stripWs line) = true then Option.none
    else if startsWithLit "incremental:".toList (stripWs line) then some idx
    else findIncLineAux rest (idx + 1) end_indent

def find_incremental_line (lines : List (List Char)) (start_idx end_indent : Nat) : Option Nat :=
  findIncLineAux (lines.drop start_idx) start_idx end_indent

/-- `next((i for i, line in enumerate(lines) if line.lstrip().startswith("variants:")), None)`. -/
def findVariantsLineIdx : List (List Char) → Nat → Option Nat
  | [], _ => Option.none
  | line :: rest, i =>
    if startsWithLit "variants:".toList (lstripWs line) then some i
    else findVariantsLineIdx rest (i + 1)

/-- The scan for the `match_idx`-th `- ` list item below the `variants:`
line; returns `(target_variant_indent, variant_start_idx)`. -/
def findVariantBlockAux : List (List Char) → Nat → Nat → Int → Int → Option (Nat × Nat)
  | [], _, _, _, _ => Option.none
  | line :: rest, i, variants_indent, counter, match_idx =>
    if countIndent line ≤ variants_indent ∧ stripWs line ≠ [] then Option.none
    else if startsWithLit "- ".toList (stripWs line) then
      if counter + 1 = match_idx then some (countIndent line, i + 1)
      else findVariantBlockAux rest (i + 1) variants_indent (counter + 1) match_idx
    else findVariantBlockAux rest (i + 1) variants_indent counter match_idx

/-- The non-variant scan: first top-level `incremental:` line before any
`variants:` line. -/
def findTopIncIdx : List (List Char) → Nat → Option Nat
  | [], _ => Option.none
  | line :: rest, i =>
    if startsWithLit "variants:".toList (stripWs line) then Option.none
    else if startsWithLit "incremental:".toList (stripWs line) then some i
    else findTopIncIdx rest (i + 1)

/-- `isinstance(data, dict) and isinstance(data.get("variants"), list)`. -/
def getVariants : Option PyVal → Option ((List (List Char × PyVal)) × List PyVal)
  | some (PyVal.dict d) =>
    match dictGet d "variants".toList with
    | some (PyVal.list vs) => some (d, vs)
    | _ => Option.none
  | _ => Option.none

/-- `variant.get("product", data.get("product"))`. -/
def effProduct (variant data : List (List Char × PyVal)) : PyVal :=
  pyGetD variant "product".toList (pyGetD data "product".toList PyVal.none)

/-- The preferred lookup at `cfg.variant_index`. -/
def matchIdxByIndex (vs : List PyVal) (data : List (List Char × PyVal)) (cfg : Config) :
    Option Nat :=
  match cfg.variant_index with
  | Option.none => Option.none
  | some vi =>
    if 0 ≤ vi ∧ vi < (vs.length : Int) then
      match vs[vi.toNat]? with
      | some (PyVal.dict cd) =>
        if pyEqStr (effProduct cd data) cfg.product then some vi.toNat else Option.none
      | _ => Option.none
    else Option.none

/-- The fallback linear scan by product match. -/
def matchIdxScanAux (data : List (List Char × PyVal)) (cfg : Config) :
    List PyVal → Nat → Option Nat
  | [], _ => Option.none
  | v :: rest, i =>
    match v with
    | PyVal.dict cd =>
      if pyEqStr (effProduct cd data) cfg.product then some i
      else matchIdxScanAux data cfg rest (i + 1)
    | _ => matchIdxScanAux data cfg rest (i + 1)

def computeMatchIdx (vs : List PyVal) (data : List (List Char × PyVal)) (cfg : Config) :
    Option Nat :=
  match matchIdxByIndex vs data cfg with
  | some i => some i
  | Option.none => matchIdxScanAux data cfg vs 0

/-- The `try: variants[match_idx].get("incremental") == new_incremental`
early-success check (`except: pass` makes non-dict entries skip it). -/
def incAlreadyCurrent (vs : List PyVal) (mi : Nat) (new_incremental : List Char) : Bool :=
  match vs[mi]? with
  | some (PyVal.dict cd) => pyEqStr (pyGetD cd "incremental".toList PyVal.none) new_incremental
  | _ => false

/-- The result of `update_config_incremental`: the returned boolean and the
file write it performs, if any. -/
structure UpdOut where
  ok : Bool
  written : Option (List Char)
deriving Repr, DecidableEq

/-- The common tail: `new_text = "".flatten(lines)`; success with no write
when the text is unchanged, else a single whole-file write. -/
def updFinish (raw : List Char) (lines2 : List (List Char)) : UpdOut :=
  if lines2.flatten = raw then { ok := true, written := Option.none }
  else { ok := true, written := some lines2.flatten }

def update_config_incremental (raw_text : List Char) (parsed : Option PyVal)
    (cfg : Config) (new_incremental : List Char) : UpdOut :=
  if new_incremental = [] then { ok := false, written := Option.none }
  else
    match getVariants parsed with
    | some (d, vs) =>
      match computeMatchIdx vs d cfg with
      | Option.none => { ok := false, written := Option.none }
      | some mi =>
        if incAlreadyCurrent vs mi new_incremental then { ok := true, written := Option.none }
        else
          match findVariantsLineIdx (pySplitlinesKeep raw_text) 0 with
          | Option.none => { ok := false, written := Option.none }
          | some vIdx =>
            match findVariantBlockAux ((pySplitlinesKeep raw_text).drop (vIdx + 1)) (vIdx + 1)
                (countIndent ((pySplitlinesKeep raw_text).getD vIdx [])) (-1) (mi : Int) with
            | Option.none => { ok := false, written := Option.none }
            | some (tIndent, startIdx) =>
              match find_incremental_line (pySplitlinesKeep raw_text) startIdx tIndent with
              | Option.none =>
                updFinish raw_text (listInsertAt startIdx
                  (List.replicate (tIndent + 2) ' ' ++ "incremental: \"".toList ++
                    new_incremental ++ "\"\n".toList)
                  (pySplitlinesKeep raw_text))
              | some incIdx =>
                updFinish raw_text ((pySplitlinesKeep raw_text).set incIdx
                  (rewrite_line ((pySplitlinesKeep raw_text).getD incIdx []) new_incremental))
    | Option.none =>
      match findTopIncIdx (pySplitlinesKeep raw_text) 0 with
      | Option.none => { ok := false, written := Option.none }
      | some incIdx =>
        updFinish raw_text ((pySplitlinesKeep raw_text).set incIdx
          (rewrite_line ((pySplitlinesKeep raw_text).getD incIdx []) new_incremental))

/-- The index of the existing `incremental:` line that
`update_config_incremental` rewrites in place, when its control flow
reaches an in-place rewrite (as opposed to failing, exiting early, or
inserting a new line). -/
def locatedIncIdx (raw_text : List Char) (parsed : Option PyVal) (cfg : Config)
    (new_incremental : List Char) : Option Nat :=
  if new_incremental = [] then Option.none
  else
    match getVariants parsed with
    | some (d, vs) =>
      match computeMatchIdx vs d cfg with
      | Option.none => Option.none
      | some mi =>
        if incAlreadyCurrent vs mi new_incremental then Option.none
        else
          match findVariantsLineIdx (pySplitlinesKeep raw_text) 0 with
          | Option.none => Option.none
          | some vIdx =>
            match findVariantBlockAux ((pySplitlinesKeep raw_text).drop (vIdx + 1)) (vIdx + 1)
                (countIndent ((pySplitlinesKeep raw_text).getD vIdx [])) (-1) (mi : Int) with
            | Option.none => Option.none
            | some (tIndent, startIdx) =>
              find_incremental_line (pySplitlinesKeep raw_text) startIdx tIndent
    | Option.none => findTopIncIdx (pySplitlinesKeep raw_text) 0

/-- A two-variant fixture document with comments and mixed quoting, and
the parse of it that `yaml.safe_load` would produce. -/
def sampleRaw : List Char :=
  ("product: KM9\nvariants:\n  - product: \"KM9-OP\"\n    incremental: \"111\"  # old\n" ++
    "  - product: KM9-RU\n    incremental: '222'\n").toList

def sampleParsed : Option PyVal :=
  some (PyVal.dict
    [("product".toList, PyVal.str "KM9".toList),
     ("variants".toList, PyVal.list
       [PyVal.dict [("product".toList, PyVal.str "KM9-OP".toList),
                    ("incremental".toList, PyVal.str "111".toList)],
        PyVal.dict [("product".toList, PyVal.str "KM9-RU".toList),
                    ("incremental".toList, PyVal.str "222".toList)]])])

def sampleCfg : Config :=
  { build_tag := "TAG".toList, incremental := "111".toList,
    android_version := "13".toList, model := "KM9".toList,
    device := "KM9h".toList, oem := "TECNO".toList, product := "KM9-OP".toList,
    variant := Option.none, variant_index := some 0 }

def breakFree (b : List Char) : Prop := ∀ c ∈ b, isPyLineBreak c = false

/-- `u` is a completely terminated line whose terminator does not merge
with the following text `next`. -/
def termedLine (u next : List Char) : Prop :=
  ∃ b t, u = b ++ t ∧ breakFree b ∧
    (t = ['\r', '\n'] ∨
      ∃ c, t = [c] ∧ isPyLineBreak c = true ∧ (c = '\r' → next.head? ≠ some '\n'))

def wfLines : List (List Char) → Prop
  | [] => True
  | u :: rest =>
    u ≠ [] ∧ (termedLine u rest.flatten ∨ (rest = [] ∧ breakFree u)) ∧ wfLines rest

/-- The parse of the fixture document after the first variant's
`incremental` was rewritten to `"333"`. -/
def sampleParsedAfter : Option PyVal :=
  some (PyVal.dict
    [("product".toList, PyVal.str "KM9".toList),
     ("variants".toList, PyVal.list
       [PyVal.dict [("product".toList, PyVal.str "KM9-OP".toList),
                    ("incremental".toList, PyVal.str "333".toList)],
        PyVal.dict [("product".toList, PyVal.str "KM9-RU".toList),
                    ("incremental".toList, PyVal.str "222".toList)]])])

/-- A single-identity fixture document (no `variants:` section) and its
parses before and after the rewrite. -/
def sampleRawTop : List Char :=
  "model: KM9\nincremental: 111  # old\n".toList

def sampleParsedTop : Option PyVal :=
  some (PyVal.dict
    [("model".toList, PyVal.str "KM9".toList),
     ("incremental".toList, PyVal.str "111".toList)])

def sampleParsedTopAfter : Option PyVal :=
  some (PyVal.dict
    [("model".toList, PyVal.str "KM9".toList),
     ("incremental".toList, PyVal.str "222".toList)])

/-! ### The per-variant driver of `checkota.py`, its effects and exit codes -/

/-- The command-line flags of `main` that `process_config_variant` and the
two processing loops consult. -/
structure Args where
  dry_run : Bool
  skip_telegram : Bool
  register_fingerprint : Bool
  force_notify : Bool
  force_release : Bool
  incremental : Option (List Char)
deriving Repr, DecidableEq

/-- The essential fields of the `data` dict returned by
`UpdateChecker.check` (an empty string models a `None`/empty value). -/
structure CheckData where
  title : List Char
  url : List Char
  size : List Char
  description : List Char
deriving Repr, DecidableEq

/-- The fields of the dict returned by the external `get_ota_metadata`
that drive control flow (an empty string models a missing/empty value). -/
structure OtaMeta where
  fingerprint : List Char
  post_build_incremental : List Char
deriving Repr, DecidableEq

/-- The outcomes of the external collaborators of one
`process_config_variant` run: Telegram credentials/constructor, the
check-in exchange, the OTA metadata fetch, the state-file contents, the
config rewrite outcome and the notification dispatch outcome. -/
structure VariantEnv where
  tgAvailable : Bool
  check : Option CheckData
  otaMeta : Option OtaMeta
  processedFps : List (List Char)
  updateCfgOk : Bool
  sendOk : Bool
deriving Repr, DecidableEq

/-- The dry-run intentions `process_config_variant` logs in place of
suppressed side effects. -/
inductive IntentKind where
  | updateConfigIntent
  | registerSaveIntent
  | sendTgIntent
  | saveFpIntent
  | releaseIntent
  | forceReleaseIntent
deriving Repr, DecidableEq

/-- The observable outcome of one `process_config_variant` run: its exit
code, which side effects it performed (config write attempt, state-file
append, Telegram dispatch, GitHub release attempt, git commit attempt)
and which dry-run intentions it logged. -/
structure VariantResult where
  exit : Nat
  configWriteAttempted : Bool
  fpSaved : Bool
  tgSent : Bool
  releaseAttempted : Bool
  commitAttempted : Bool
  intents : List IntentKind
deriving Repr, DecidableEq

/-- An early return with no side effects and no intentions. -/
def noFx (e : Nat) : VariantResult :=
  { exit := e, configWriteAttempted := false, fpSaved := false, tgSent := false,
    releaseAttempted := false, commitAttempted := false, intents := [] }

/-- The tail of `process_config_variant` after the notification block: the
`--force-release` block and the incremental-commit block, then `return 0`. -/
def variantTail (a : Args) (isNew cfgWrite configUpdated : Bool) (targetInc : List Char)
    (fpSavedNow tgSentNow relAtt : Bool) (ints : List IntentKind) : VariantResult :=
  { exit := 0,
    configWriteAttempted := cfgWrite,
    fpSaved := fpSavedNow,
    tgSent := tgSentNow,
    releaseAttempted := relAtt || (a.force_release && !a.dry_run),
    commitAttempted := isNew && !a.dry_run && configUpdated && !targetInc.isEmpty,
    intents := if a.force_release && a.dry_run then ints ++ [IntentKind.forceReleaseIntent]
      else ints }

def process_config_variant (a : Args) (env : VariantEnv) : VariantResult :=
  let tgSome := !a.skip_telegram && !a.register_fingerprint && env.tgAvailable
  match env.check with
  | Option.none => noFx 0
  | some d =>
    if d.title.isEmpty || d.url.isEmpty || d.size.isEmpty then noFx 1
    else
      match env.otaMeta with
      | Option.none => noFx 1
      | some m =>
        if m.fingerprint.isEmpty then noFx 1
        else
          let isNew := !(env.processedFps.contains m.fingerprint)
          let targetInc := if !m.post_build_incremental.isEmpty then m.post_build_incremental
            else (extract_incremental_from_fingerprint m.fingerprint).getD []
          let cfgIntent := isNew && !a.register_fingerprint && !targetInc.isEmpty && a.dry_run
          let cfgWrite := isNew && !a.register_fingerprint && !targetInc.isEmpty && !a.dry_run
          let configUpdated := cfgWrite && env.updateCfgOk
          let ints1 := if cfgIntent then [IntentKind.updateConfigIntent] else []
          if !isNew && !a.force_notify then
            { noFx 0 with configWriteAttempted := cfgWrite, intents := ints1 }
          else if a.register_fingerprint then
            if isNew then
              if a.dry_run then
                { noFx 0 with
                  configWriteAttempted := cfgWrite
                  intents := ints1 ++ [IntentKind.registerSaveIntent] }
              else
                { noFx 0 with
                  configWriteAttempted := cfgWrite
                  fpSaved := true
                  intents := ints1 }
            else
              { noFx 0 with configWriteAttempted := cfgWrite, intents := ints1 }
          else
            if tgSome then
              if a.dry_run then
                variantTail a isNew cfgWrite configUpdated targetInc false false false
                  (ints1 ++ IntentKind.sendTgIntent ::
                    (if isNew then [IntentKind.saveFpIntent, IntentKind.releaseIntent]
                     else []))
              else if env.sendOk then
                variantTail a isNew cfgWrite configUpdated targetInc isNew true isNew ints1
              else
                { exit := 1, configWriteAttempted := cfgWrite, fpSaved := false,
                  tgSent := true, releaseAttempted := false, commitAttempted := false,
                  intents := ints1 }
            else
              variantTail a isNew cfgWrite configUpdated targetInc false false false ints1

/-- The persistent mutation of `args.skip_telegram` performed at the top
of `process_config_variant` (set when credentials are missing or the
notifier constructor fails). -/
def updatedSkipTg (a : Args) (env : VariantEnv) : Bool :=
  if !a.skip_telegram && !a.register_fingerprint then
    (if env.tgAvailable then a.skip_telegram else true)
  else a.skip_telegram

/-- The variant loop of `process_config`: thread the (possibly mutated)
args and fold the exit codes with `max`. -/
def process_config_go : Args → List VariantEnv → Nat → Nat × Args
  | a, [], acc => (acc, a)
  | a, env :: rest, acc =>
    process_config_go { a with skip_telegram := updatedSkipTg a env } rest
      (max acc (process_config_variant a env).exit)

/-- `process_config`: `Option.none` models a `Config.from_yaml` failure;
the guard is the `--incremental`-with-multiple-variants error. -/
def process_config (a : Args) (cfgs : Option (List VariantEnv)) : Nat × Args :=
  match cfgs with
  | Option.none => (1, a)
  | some envs =>
    if a.incremental.isSome && (envs.length != 1) then (1, a)
    else process_config_go a envs 0

/-- The config-file loop of `main`, threading args and folding with `max`. -/
def main_go : Args → List (Option (List VariantEnv)) → Nat → Nat
  | _, [], acc => acc
  | a, c :: rest, acc =>
    main_go (process_config a c).2 rest (max acc (process_config a c).1)

/-- `main` after argument validation: `Option.none` models the
no-config-files-found error; the guard is the `--incremental`-with-multiple
-config-files error. -/
def checkota_main (a : Args) (cfgFiles : Option (List (Option (List VariantEnv)))) : Nat :=
  match cfgFiles with
  | Option.none => 1
  | some cs =>
    if a.incremental.isSome && (cs.length != 1) then 1
    else main_go a cs 0

/-- The list of per-variant exit codes produced along the threaded-args
variant loop. -/
def variantExits : Args → List VariantEnv → List Nat
  | _, [] => []
  | a, env :: rest =>
    (process_config_variant a env).exit ::
      variantExits { a with skip_telegram := updatedSkipTg a env } rest

/-- The list of per-config exit codes produced along the config loop. -/
def configExits : Args → List (Option (List VariantEnv)) → List Nat
  | _, [] => []
  | a, c :: rest =>
    (process_config a c).1 :: configExits (process_config a c).2 rest

/-- A live (non-dry-run) argument set with notifications enabled. -/
def sampleArgsLive : Args :=
  { dry_run := false, skip_telegram := false, register_fingerprint := false,
    force_notify := false, force_release := false, incremental := Option.none }

def sampleCheckData : CheckData :=
  { title := "OTA".toList, url := "https://u".toList, size := "1GB".toList,
    description := "d".toList }

def sampleOtaMeta : OtaMeta :=
  { fingerprint := "TECNO/KM9-OP/KM9h:13/TAG/333:user/release-keys".toList,
    post_build_incremental := "333".toList }

/-- A run in which everything is found and new but the Telegram dispatch
fails. -/
def sampleEnvSendFail : VariantEnv :=
  { tgAvailable := true, check := some sampleCheckData, otaMeta := some sampleOtaMeta,
    processedFps := [], updateCfgOk := true, sendOk := false }

/-- The live argument set with the dry-run flag enabled. -/
def sampleArgsDry : Args :=
  { dry_run := true, skip_telegram := false, register_fingerprint := false,
    force_notify := false, force_release := false, incremental := Option.none }

/-- A run with a new update and notifications configured (dispatch outcome
irrelevant under dry-run). -/
def sampleEnvDry : VariantEnv :=
  { tgAvailable := true, check := some sampleCheckData, otaMeta := some sampleOtaMeta,
    processedFps := [], updateCfgOk := true, sendOk := true }

/-! ### Theorems -/

/-! ### Splitting lemmas -/

theorem splitFirst_append (sep : Char) (a b : List Char) (h : sep ∉ a) :
    splitFirst sep (a ++ sep :: b) = some (a, b) := by
  induction a with
  | nil => simp [splitFirst]
  | cons x xs ih =>
    have hx : x ≠ sep := by
      intro hEq; exact h (by simp [hEq])
    have hxs : sep ∉ xs := fun hm => h (List.mem_cons_of_mem _ hm)
    simp [splitFirst, hx, ih hxs]

theorem splitAll_append (sep : Char) (a b : List Char) (h : sep ∉ a) :
    splitAll sep (a ++ sep :: b) = a :: splitAll sep b := by
  induction a with
  | nil => simp [splitAll]
  | cons x xs ih =>
    have hx : x ≠ sep := by
      intro hEq; exact h (by simp [hEq])
    have hxs : sep ∉ xs := fun hm => h (List.mem_cons_of_mem _ hm)
    simp [splitAll, hx, ih hxs]

theorem splitAll_of_not_mem (sep : Char) (a : List Char) (h : sep ∉ a) :
    splitAll sep a = [a] := by
  induction a with
  | nil => simp [splitAll]
  | cons x xs ih =>
    have hx : x ≠ sep := by
      intro hEq; exact h (by simp [hEq])
    have hxs : sep ∉ xs := fun hm => h (List.mem_cons_of_mem _ hm)
    simp [splitAll, hx, ih hxs]

/-- C5: the incremental value round-trips through the canonical fingerprint
string: for configs whose identity fields are nonempty and free of `/` and
`:`, `extract_incremental_from_fingerprint (cfg.fingerprint)` recovers
exactly `cfg.incremental` via the third `/`-delimited segment of the suffix
after the first `:`. -/
theorem extract_incremental_roundtrip (cfg : Config)
    (hoem : cfg.oem ≠ [] ∧ '/' ∉ cfg.oem ∧ ':' ∉ cfg.oem)
    (hprod : cfg.product ≠ [] ∧ '/' ∉ cfg.product ∧ ':' ∉ cfg.product)
    (hdev : cfg.device ≠ [] ∧ '/' ∉ cfg.device ∧ ':' ∉ cfg.device)
    (hav : cfg.android_version ≠ [] ∧ '/' ∉ cfg.android_version ∧ ':' ∉ cfg.android_version)
    (htag : cfg.build_tag ≠ [] ∧ '/' ∉ cfg.build_tag ∧ ':' ∉ cfg.build_tag)
    (hinc : cfg.incremental ≠ [] ∧ '/' ∉ cfg.incremental ∧ ':' ∉ cfg.incremental) :
    extract_incremental_from_fingerprint cfg.fingerprint = some cfg.incremental := by
  obtain ⟨hoem1, hoem2, hoem3⟩ := hoem
  obtain ⟨hprod1, hprod2, hprod3⟩ := hprod
  obtain ⟨hdev1, hdev2, hdev3⟩ := hdev
  obtain ⟨hav1, hav2, hav3⟩ := hav
  obtain ⟨htag1, htag2, htag3⟩ := htag
  obtain ⟨hinc1, hinc2, hinc3⟩ := hinc
  have hurk : "user/release-keys".toList = "user".toList ++ '/' :: "release-keys".toList := by
    decide
  -- The fingerprint, regrouped around the first ':'.
  have hfp : cfg.fingerprint =
      (cfg.oem ++ '/' :: cfg.product ++ '/' :: cfg.device) ++
        ':' :: (cfg.android_version ++ '/' :: cfg.build_tag ++
          '/' :: (cfg.incremental ++ ':' :: "user".toList ++ '/' :: "release-keys".toList)) := by
    simp [Config.fingerprint, hurk]
  have hpre : ':' ∉ cfg.oem ++ '/' :: cfg.product ++ '/' :: cfg.device := by
    simp [hoem3, hprod3, hdev3]
  have hfpne : cfg.fingerprint ≠ [] := by
    simp [Config.fingerprint]
  have hsplit1 := splitFirst_append ':'
    (cfg.oem ++ '/' :: cfg.product ++ '/' :: cfg.device)
    (cfg.android_version ++ '/' :: cfg.build_tag ++
      '/' :: (cfg.incremental ++ ':' :: "user".toList ++ '/' :: "release-keys".toList)) hpre
  -- The suffix, regrouped around its '/' separators.
  have hsfx :
      cfg.android_version ++ '/' :: cfg.build_tag ++
        '/' :: (cfg.incremental ++ ':' :: "user".toList ++ '/' :: "release-keys".toList) =
      cfg.android_version ++ '/' :: (cfg.build_tag ++
        '/' :: ((cfg.incremental ++ ':' :: "user".toList) ++ '/' :: "release-keys".toList)) := by
    simp
  have hnomid : '/' ∉ cfg.incremental ++ ':' :: "user".toList := by
    simp [hinc2]
  have hnorel : '/' ∉ "release-keys".toList := by decide
  have hsplitAll :
      splitAll '/' (cfg.android_version ++ '/' :: cfg.build_tag ++
        '/' :: (cfg.incremental ++ ':' :: "user".toList ++ '/' :: "release-keys".toList)) =
      [cfg.android_version, cfg.build_tag,
        cfg.incremental ++ ':' :: "user".toList, "release-keys".toList] := by
    rw [hsfx, splitAll_append _ _ _ hav2]
    rw [splitAll_append _ _ _ htag2]
    rw [show (cfg.incremental ++ ':' :: "user".toList) ++ '/' :: "release-keys".toList =
      (cfg.incremental ++ ':' :: "user".toList) ++ '/' :: "release-keys".toList from rfl,
      splitAll_append _ _ _ hnomid, splitAll_of_not_mem _ _ hnorel]
  have hsegne : cfg.incremental ++ ':' :: "user".toList ≠ [] := by simp
  have hseg : splitFirst ':' (cfg.incremental ++ ':' :: "user".toList) =
      some (cfg.incremental, "user".toList) := splitFirst_append ':' _ _ hinc3
  rw [extract_incremental_from_fingerprint, if_neg hfpne, hfp, hsplit1]
  simp only [hsplitAll]
  have hseg' : splitFirst ':' (cfg.incremental ++ [':', 'u', 's', 'e', 'r']) =
      some (cfg.incremental, ['u', 's', 'e', 'r']) := hseg
  simp [List.getD, hseg']

/-- Witness for C5 at a concrete configuration. -/
theorem extract_incremental_roundtrip_witness :
    extract_incremental_from_fingerprint
      (Config.fingerprint
        { build_tag := "TP1A.220624.014".toList
          incremental := "250101V1234".toList
          android_version := "13".toList
          model := "Tecno KM9".toList
          device := "KM9h".toList
          oem := "TECNO".toList
          product := "KM9-OP".toList }) = some "250101V1234".toList :=
  extract_incremental_roundtrip _
    (by decide) (by decide) (by decide) (by decide) (by decide) (by decide)

theorem parseNamedStep_frame (info1 : UpdateInfo) (e : SettingEntry) :
    (parseNamedStep info1 e).url = info1.url ∧
      (parseNamedStep info1 e).found = info1.found := by
  rw [parseNamedStep]
  cases utf8DecodeStrict e.name with
  | none => exact ⟨rfl, rfl⟩
  | some name =>
    simp only
    split_ifs <;> exact ⟨rfl, rfl⟩

theorem parseUrlStep_found_true (info : UpdateInfo) (e : SettingEntry)
    (h : info.found = true) : parseUrlStep info e = info := by
  simp [parseUrlStep, h]

theorem parseUrlStep_found_false (info : UpdateInfo) (e : SettingEntry)
    (h : info.found = false) :
    (urlEntryMatch e = true →
      (parseUrlStep info e).url = some (stripWs (utf8DecodeIgnore e.value)) ∧
        (parseUrlStep info e).found = true) ∧
    (urlEntryMatch e = false →
      parseUrlStep info e = info) := by
  constructor
  · intro hm
    simp only [urlEntryMatch, Bool.and_eq_true] at hm
    obtain ⟨hm1, hm2⟩ := hm
    have hne : stripWs (utf8DecodeIgnore e.value) ≠ [] := by
      simpa [List.isEmpty_iff] using hm2
    simp [parseUrlStep, h, hm1, hne]
  · intro hm
    simp only [urlEntryMatch, Bool.and_eq_false_iff] at hm
    rcases hm with hm | hm
    · rw [parseUrlStep]
      simp [h, hm]
    · have hm' : stripWs (utf8DecodeIgnore e.value) = [] := by
        simpa [List.isEmpty_iff] using hm
      rw [parseUrlStep]
      simp [h, hm']

theorem foldl_parseStep_found (l : List SettingEntry) (info : UpdateInfo)
    (h : info.found = true) :
    (l.foldl parseStep info).url = info.url ∧ (l.foldl parseStep info).found = true := by
  induction l generalizing info with
  | nil => exact ⟨rfl, h⟩
  | cons e rest ih =>
    have hu : parseStep info e = parseNamedStep info e := by
      rw [parseStep, parseUrlStep_found_true info e h]
    obtain ⟨h1, h2⟩ := parseNamedStep_frame info e
    rw [← hu] at h1 h2
    obtain ⟨h3, h4⟩ := ih (parseStep info e) (h2.trans h)
    exact ⟨h3.trans (h1.trans rfl), h4⟩

theorem foldl_parseStep_scan (l : List SettingEntry) (info : UpdateInfo)
    (hf : info.found = false) :
    (l.foldl parseStep info).url =
      (match l.find? urlEntryMatch with
        | some e => some (stripWs (utf8DecodeIgnore e.value))
        | none => info.url) ∧
    (l.foldl parseStep info).found = (l.find? urlEntryMatch).isSome := by
  induction l generalizing info with
  | nil => simp [hf]
  | cons e rest ih =>
    by_cases hm : urlEntryMatch e = true
    · obtain ⟨h1, h2⟩ := (parseUrlStep_found_false info e hf).1 hm
      obtain ⟨hn1, hn2⟩ := parseNamedStep_frame (parseUrlStep info e) e
      have hs1 : (parseStep info e).url = some (stripWs (utf8DecodeIgnore e.value)) := by
        rw [parseStep, hn1, h1]
      have hs2 : (parseStep info e).found = true := by
        rw [parseStep, hn2, h2]
      obtain ⟨h3, h4⟩ := foldl_parseStep_found rest (parseStep info e) hs2
      simp [List.find?_cons, hm, List.foldl_cons, h3, hs1, h4]
    · replace hm : urlEntryMatch e = false := by simpa using hm
      have h1 : parseUrlStep info e = info := (parseUrlStep_found_false info e hf).2 hm
      obtain ⟨hn1, hn2⟩ := parseNamedStep_frame (parseUrlStep info e) e
      have hs1 : (parseStep info e).url = info.url := by rw [parseStep, hn1, h1]
      have hs2 : (parseStep info e).found = false := by rw [parseStep, hn2, h1, hf]
      obtain ⟨h3, h4⟩ := ih (parseStep info e) hs2
      rw [List.foldl_cons] at *
      refine ⟨?_, ?_⟩
      · rw [h3, hs1]
        simp [List.find?_cons, hm]
      · rw [h4]
        simp [List.find?_cons, hm]

/-- C6: the download URL comes from the first settings entry whose name is
exactly `update_url` or whose raw value contains the OTA URL prefix and
whose stripped decoded value is nonempty; once `found` is set, no later
URL-matching entry overwrites the recorded URL (first match wins). -/
theorem parse_first_url_match_wins (model : List Char) (settings : List SettingEntry) :
    (checker_parse model settings).url =
      (settings.find? urlEntryMatch).map (fun e => stripWs (utf8DecodeIgnore e.value)) ∧
    (checker_parse model settings).found = (settings.find? urlEntryMatch).isSome := by
  obtain ⟨h1, h2⟩ := foldl_parseStep_scan settings (initInfo model) rfl
  refine ⟨?_, h2⟩
  rw [checker_parse, h1]
  cases settings.find? urlEntryMatch <;> simp [initInfo]

/-- C10: in every `_parse` result, `found` is `true` iff the recorded URL is
a nonempty string. -/
theorem parse_found_iff_url_nonempty (model : List Char) (settings : List SettingEntry) :
    (checker_parse model settings).found = true ↔
      ∃ u, (checker_parse model settings).url = some u ∧ u ≠ [] := by
  obtain ⟨h1, h2⟩ := foldl_parseStep_scan settings (initInfo model) rfl
  simp only [checker_parse]
  rw [h1, h2]
  cases hf : settings.find? urlEntryMatch with
  | none => simp [initInfo]
  | some e =>
    have hme := List.find?_some hf
    have hne : stripWs (utf8DecodeIgnore e.value) ≠ [] := by
      simp only [urlEntryMatch, Bool.and_eq_true, Bool.not_eq_true',
        List.isEmpty_iff] at hme
      intro hcon
      rcases hme with ⟨_, hme2⟩
      rw [hcon] at hme2
      simp at hme2
    simp [hne]

/-! ### Supporting lemmas for the truncation law -/

theorem pySliceTo_length_le (l : List Char) (n : Int) :
    (pySliceTo l n).length ≤ l.length := by
  rw [pySliceTo]
  split <;> simp [List.length_take]

theorem pySliceTo_length_le_int (l : List Char) (n : Int) (h : 0 ≤ n) :
    ((pySliceTo l n).length : Int) ≤ n := by
  rw [pySliceTo, if_pos h]
  have h1 : (l.take n.toNat).length ≤ n.toNat := by simp [List.length_take]
  calc ((l.take n.toNat).length : Int) ≤ (n.toNat : Int) := by exact_mod_cast h1
    _ = n := Int.toNat_of_nonneg h

theorem truncFallback_length_le (t : List Char) (E : Int) :
    (truncFallback t E).length ≤ t.length := by
  rw [truncFallback]
  split_ifs <;> first
    | exact pySliceTo_length_le _ _
    | exact Nat.le_refl _

theorem truncPick_length_le (t : List Char) (E : Int) :
    (truncPick t E).length ≤ t.length := by
  rw [truncPick]
  cases (sentence_endings t).getLast? with
  | none => exact truncFallback_length_le t E
  | some se =>
    simp only
    split_ifs
    · simp [List.length_take]
    · exact truncFallback_length_le t E

theorem sentEndsAux_mem {l : List Char} {i j : Nat} {s : Bool}
    (h : j ∈ sentEndsAux l i s) :
    i ≤ j ∧ ∃ c, l[j - i]? = some c ∧ isPyWs c = true := by
  induction l generalizing i s with
  | nil => simp [sentEndsAux] at h
  | cons c rest ih =>
    rw [sentEndsAux.eq_def] at h
    dsimp only at h
    by_cases hws : isPyWs c
    · rw [if_pos hws] at h
      split at h
      · rcases List.mem_cons.mp h with rfl | h'
        · exact ⟨le_refl _, c, by simp, hws⟩
        · obtain ⟨hij, c', hc', hwc⟩ := ih h'
          refine ⟨by omega, c', ?_, hwc⟩
          rw [show j - i = (j - (i + 1)) + 1 by omega]
          simpa using hc'
      · obtain ⟨hij, c', hc', hwc⟩ := ih h
        refine ⟨by omega, c', ?_, hwc⟩
        rw [show j - i = (j - (i + 1)) + 1 by omega]
        simpa using hc'
    · rw [if_neg hws] at h
      obtain ⟨hij, c', hc', hwc⟩ := ih h
      refine ⟨by omega, c', ?_, hwc⟩
      rw [show j - i = (j - (i + 1)) + 1 by omega]
      simpa using hc'

theorem sentence_endings_mem {t : List Char} {j : Nat}
    (h : j ∈ sentence_endings t) :
    ∃ c, t[j]? = some c ∧ isPyWs c = true := by
  obtain ⟨-, c, hc, hw⟩ := sentEndsAux_mem h
  exact ⟨c, by simpa using hc, hw⟩

theorem rfindSeq_neg_one (pat t : List Char)
    (h : ∀ i, pat.isPrefixOf (t.drop i) = false) : rfindSeq pat t = -1 := by
  rw [rfindSeq]
  have hf : (List.range (t.length + 1)).filter (fun i => pat.isPrefixOf (t.drop i)) = [] :=
    List.filter_eq_nil_iff.mpr (fun a _ => by simp [h a])
  rw [hf]
  rfl

theorem rfindSeq_cases (pat t : List Char) :
    rfindSeq pat t = -1 ∨
      ∃ k : Nat, rfindSeq pat t = (k : Int) ∧ pat.isPrefixOf (t.drop k) = true ∧
        k ≤ t.length := by
  rw [rfindSeq]
  cases hl : (List.range (t.length + 1)).filter (fun i => pat.isPrefixOf (t.drop i)) |>.getLast? with
  | none => exact Or.inl rfl
  | some k =>
    have hk := List.mem_of_getLast?_eq_some hl
    have hk2 := List.mem_filter.mp hk
    refine Or.inr ⟨k, rfl, by simpa using hk2.2, ?_⟩
    have := List.mem_range.mp hk2.1
    omega

theorem sentEndsAux_replicate_a (n i : Nat) (s : Bool) :
    sentEndsAux (List.replicate n 'a') i s = [] := by
  induction n generalizing i s with
  | zero => rfl
  | succ m ih =>
    rw [List.replicate_succ, sentEndsAux.eq_def]
    dsimp only
    rw [if_neg (by decide)]
    exact ih _ _

theorem rfindSeq_replicate_a (pat : List Char) (d : Char) (tl : List Char) (n : Nat)
    (hpat : pat = d :: tl) (hd : d ≠ 'a') :
    rfindSeq pat (List.replicate n 'a') = -1 := by
  apply rfindSeq_neg_one
  intro i
  rw [List.drop_replicate, hpat]
  cases hnm : n - i with
  | zero => rfl
  | succ k =>
    rw [List.replicate_succ]
    show ((d == 'a') && tl.isPrefixOf (List.replicate k 'a')) = false
    have : (d == 'a') = false := by simpa using hd
    rw [this, Bool.false_and]

/-- C3 counterexample: at the default budget `DESC_MAX_LEN` and with no
Telegraph page, a 1501-character description is hard-cut to 1500
characters and the 3-character `"..."` link text is appended, so the
returned length is 1503, exceeding the configured maximum. -/
theorem truncate_desc_exceeds_budget :
    (truncate_desc (List.replicate 1501 'a') (DESC_MAX_LEN : Int) none).length =
      DESC_MAX_LEN + 3 ∧ DESC_MAX_LEN + 3 > DESC_MAX_LEN := by
  have hEcast : ((DESC_MAX_LEN : Nat) : Int) = 1500 := rfl
  have hE : effectiveMax (DESC_MAX_LEN : Int) none = 1500 := rfl
  have hslice : pySliceTo (List.replicate 1501 'a') (1500 : Int) = List.replicate 1500 'a' := by
    rw [pySliceTo, if_pos (by norm_num)]
    rw [show ((1500 : Int)).toNat = 1500 from rfl, List.take_replicate]
    norm_num
  have hsent : sentence_endings (List.replicate 1500 'a') = [] := sentEndsAux_replicate_a _ _ _
  have hp : rfindSeq ['\n', '\n'] (List.replicate 1500 'a') = -1 :=
    rfindSeq_replicate_a _ '\n' _ _ rfl (by decide)
  have hl : rfindSeq ['\n'] (List.replicate 1500 'a') = -1 :=
    rfindSeq_replicate_a _ '\n' _ _ rfl (by decide)
  have hsp : rfindSeq [' '] (List.replicate 1500 'a') = -1 :=
    rfindSeq_replicate_a _ ' ' _ _ rfl (by decide)
  have hfb : truncFallback (List.replicate 1500 'a') 1500 = List.replicate 1500 'a' := by
    rw [truncFallback, hp, hl, hsp]
    norm_num
  have hpick : truncPick (List.replicate 1500 'a') 1500 = List.replicate 1500 'a' := by
    rw [truncPick, hsent]
    exact hfb
  constructor
  · rw [truncate_desc, if_neg (by rw [hEcast]; norm_num [List.length_replicate]), hE, hslice, hpick]
    rw [List.length_append, List.length_replicate]
    rfl
  · omega

theorem pySliceTo_natCast (t : List Char) (k : Nat) :
    pySliceTo t (k : Int) = t.take k := by
  rw [pySliceTo, if_pos (by positivity)]
  norm_num

theorem rfind_cut_ok (desc T : List Char) (E : Int) (hE0 : 0 ≤ E)
    (hT : T = pySliceTo desc E)
    (pat : List Char) (d : Char) (tl : List Char) (hpat : pat = d :: tl)
    (hwd : isPyWs d = true)
    (k : Nat) (hk : rfindSeq pat T = (k : Int)) :
    descCutOk desc (pySliceTo T (rfindSeq pat T)) := by
  rcases rfindSeq_cases pat T with hneg | ⟨k', hk', hpre, hkle⟩
  · rw [hneg] at hk; omega
  · have hkk : k' = k := by
      rw [hk] at hk'
      exact_mod_cast hk'.symm
    subst hkk
    -- The matched occurrence puts character `d` at index `k'` of `T`.
    have hprefix : pat <+: T.drop k' := by simpa using hpre
    obtain ⟨t2, ht2⟩ := hprefix
    have hTk : T[k']? = some d := by
      have h0 : (T.drop k')[0]? = some d := by
        rw [← ht2, hpat]
        simp
      rw [List.getElem?_drop] at h0
      simpa using h0
    have hklt : k' < T.length := by
      rcases List.getElem?_eq_some.mp hTk with ⟨h, _⟩
      exact h
    have hdesck : desc[k']? = some d := by
      rw [hT, pySliceTo, if_pos hE0] at hTk
      rw [List.getElem?_take] at hTk
      by_cases hc : k' < E.toNat
      · rwa [if_pos hc] at hTk
      · rw [if_neg hc] at hTk
        exact absurd hTk (by simp)
    have hcut : pySliceTo T (rfindSeq pat T) = T.take k' := by
      rw [hk']
      exact pySliceTo_natCast T k'
    refine Or.inr ⟨d, ?_, hwd⟩
    rw [hcut, List.length_take]
    rw [show min k' T.length = k' by omega]
    exact hdesck

theorem truncFallback_cutOk (desc T : List Char) (E : Int) (hE0 : 0 ≤ E)
    (hT : T = pySliceTo desc E)
    (hb : 10 * rfindSeq ['\n', '\n'] T > 5 * E ∨
          10 * rfindSeq ['\n'] T > 7 * E ∨
          10 * rfindSeq [' '] T > 8 * E) :
    descCutOk desc (truncFallback T E) := by
  rw [truncFallback]
  by_cases c1 : 10 * rfindSeq ['\n', '\n'] T > 5 * E
  · rw [if_pos c1]
    rcases rfindSeq_cases ['\n', '\n'] T with hneg | ⟨k, hk, -, -⟩
    · rw [hneg] at c1; omega
    · exact rfind_cut_ok desc T E hE0 hT _ '\n' _ rfl (by decide) k hk
  · rw [if_neg c1]
    by_cases c2 : 10 * rfindSeq ['\n'] T > 7 * E
    · rw [if_pos c2]
      rcases rfindSeq_cases ['\n'] T with hneg | ⟨k, hk, -, -⟩
      · rw [hneg] at c2; omega
      · exact rfind_cut_ok desc T E hE0 hT _ '\n' _ rfl (by decide) k hk
    · rw [if_neg c2]
      by_cases c3 : 10 * rfindSeq [' '] T > 8 * E
      · rw [if_pos c3]
        rcases rfindSeq_cases [' '] T with hneg | ⟨k, hk, -, -⟩
        · rw [hneg] at c3; omega
        · exact rfind_cut_ok desc T E hE0 hT _ ' ' _ rfl (by decide) k hk
      · rcases hb with hb | hb | hb
        · exact absurd hb c1
        · exact absurd hb c2
        · exact absurd hb c3

/-- C3 amended: for a description longer than the budget, and provided the
link text fits within the budget, the returned length never exceeds the
configured maximum when a Telegraph URL is present, and never exceeds it by
more than the 3-character `"..."` when none is; and whenever a sentence,
paragraph, line or word boundary exists past its respective
60%/50%/70%/80% threshold of the effective budget, the cut falls on a
whitespace boundary (never mid-word). -/
theorem truncate_desc_amended (desc : List Char) (max_len : Int)
    (url : Option (List Char))
    (hlong : max_len < (desc.length : Int))
    (hfit : ((linkText url).length : Int) ≤ max_len) :
    ∃ r, truncate_desc desc max_len url = r ++ linkText url ∧
      ((truncate_desc desc max_len url).length : Int) ≤
        max_len + (if url.isSome then 0 else 3) ∧
      (boundaryPastThreshold (pySliceTo desc (effectiveMax max_len url))
          (effectiveMax max_len url) → descCutOk desc r) := by
  have hE0 : 0 ≤ effectiveMax max_len url := by
    rw [effectiveMax]
    cases url with
    | none =>
      have h3 : ((linkText none).length : Int) = 3 := rfl
      simp only [Option.isSome_none, Bool.false_eq_true, if_false]
      omega
    | some u =>
      simp only [Option.isSome_some, if_pos]
      omega
  have hne : ¬ ((desc.length : Int) ≤ max_len) := by omega
  have he : truncate_desc desc max_len url =
      truncPick (pySliceTo desc (effectiveMax max_len url)) (effectiveMax max_len url) ++
        linkText url := by
    rw [truncate_desc, if_neg hne]
  refine ⟨truncPick (pySliceTo desc (effectiveMax max_len url)) (effectiveMax max_len url),
    he, ?_, ?_⟩
  · have h1 : (truncPick (pySliceTo desc (effectiveMax max_len url))
        (effectiveMax max_len url)).length ≤ (pySliceTo desc (effectiveMax max_len url)).length :=
      truncPick_length_le _ _
    have h2 : ((pySliceTo desc (effectiveMax max_len url)).length : Int) ≤
        effectiveMax max_len url := pySliceTo_length_le_int _ _ hE0
    rw [he, List.length_append]
    push_cast
    cases url with
    | none =>
      have h3 : ((linkText none).length : Int) = 3 := rfl
      have h4 : effectiveMax max_len none = max_len := by
        rw [effectiveMax]; simp
      have h5 : (if (none : Option (List Char)).isSome then (0 : Int) else 3) = 3 := by simp
      rw [h5]
      omega
    | some u =>
      have h4 : effectiveMax max_len (some u) =
          max_len - ((linkText (some u)).length : Int) := by
        rw [effectiveMax]; simp
      have h5 : (if (some u : Option (List Char)).isSome then (0 : Int) else 3) = 0 := by simp
      rw [h5]
      omega
  · intro hb
    rw [truncPick]
    cases hse : (sentence_endings (pySliceTo desc (effectiveMax max_len url))).getLast? with
    | some se =>
      simp only
      by_cases h6 : 10 * (se : Int) > 6 * effectiveMax max_len url
      · rw [if_pos h6]
        have hmem : se ∈ sentence_endings (pySliceTo desc (effectiveMax max_len url)) :=
          List.mem_of_getLast?_eq_some hse
        obtain ⟨c, hc, hw⟩ := sentence_endings_mem hmem
        have hselt : se < (pySliceTo desc (effectiveMax max_len url)).length := by
          rcases List.getElem?_eq_some.mp hc with ⟨h, _⟩
          exact h
        refine Or.inl ⟨c, ?_, hw⟩
        rw [List.getLast?_eq_getElem?]
        rw [List.length_take, show min (se + 1)
          (pySliceTo desc (effectiveMax max_len url)).length = se + 1 by omega]
        rw [show se + 1 - 1 = se by omega, List.getElem?_take, if_pos (by omega)]
        exact hc
      · rw [if_neg h6]
        apply truncFallback_cutOk desc _ _ hE0 rfl
        rcases hb with ⟨se', hse', h6'⟩ | hb | hb | hb
        · rw [hse] at hse'
          cases hse'
          exact absurd h6' h6
        · exact Or.inl hb
        · exact Or.inr (Or.inl hb)
        · exact Or.inr (Or.inr hb)
    | none =>
      apply truncFallback_cutOk desc _ _ hE0 rfl
      rcases hb with ⟨se', hse', h6'⟩ | hb | hb | hb
      · rw [hse] at hse'
        cases hse'
      · exact Or.inl hb
      · exact Or.inr (Or.inl hb)
      · exact Or.inr (Or.inr hb)

/-- Witness for the amended C3 at a concrete description, budget and
absent Telegraph URL. -/
theorem truncate_desc_amended_witness :
    ∃ r, truncate_desc "hello world again".toList 10 none = r ++ linkText none ∧
      ((truncate_desc "hello world again".toList 10 none).length : Int) ≤
        10 + (if (none : Option (List Char)).isSome then 0 else 3) ∧
      (boundaryPastThreshold (pySliceTo "hello world again".toList (effectiveMax 10 none))
          (effectiveMax 10 none) → descCutOk "hello world again".toList r) :=
  truncate_desc_amended "hello world again".toList 10 none (by decide) (by decide)

/-! ### Partition, strip and line-shape lemmas -/

theorem partitionAt_found_recon (c : Char) (l : List Char)
    (h : (partitionAt c l).2.1 = true) :
    l = (partitionAt c l).1 ++ c :: (partitionAt c l).2.2 := by
  induction l with
  | nil => simp [partitionAt] at h
  | cons x xs ih =>
    rw [partitionAt] at h ⊢
    by_cases hx : x = c
    · simp [hx]
    · simp only [if_neg hx] at h ⊢
      have := ih h
      simpa using this

theorem partitionAt_not_found (c : Char) (l : List Char)
    (h : (partitionAt c l).2.1 = false) :
    partitionAt c l = (l, false, []) := by
  induction l with
  | nil => rfl
  | cons x xs ih =>
    rw [partitionAt] at h ⊢
    by_cases hx : x = c
    · simp [hx] at h
    · simp only [if_neg hx] at h ⊢
      rw [ih h]

theorem not_mem_partitionAt_fst (c : Char) (l : List Char) :
    c ∉ (partitionAt c l).1 := by
  induction l with
  | nil => simp [partitionAt]
  | cons x xs ih =>
    rw [partitionAt]
    by_cases hx : x = c
    · simp [hx]
    · simp only [if_neg hx]
      intro h
      rcases List.mem_cons.mp h with h | h
      · exact hx h.symm
      · exact ih h

theorem partitionAt_append (c : Char) (a r : List Char) (h : c ∉ a) :
    partitionAt c (a ++ c :: r) = (a, true, r) := by
  induction a with
  | nil => simp [partitionAt]
  | cons x xs ih =>
    have hx : x ≠ c := by intro hEq; exact h (by simp [hEq])
    have hxs : c ∉ xs := fun hm => h (List.mem_cons_of_mem _ hm)
    simp [partitionAt, hx, ih hxs]

theorem partitionAt_no (c : Char) (l : List Char) (h : c ∉ l) :
    partitionAt c l = (l, false, []) := by
  induction l with
  | nil => rfl
  | cons x xs ih =>
    have hx : x ≠ c := by intro hEq; exact h (by simp [hEq])
    have hxs : c ∉ xs := fun hm => h (List.mem_cons_of_mem _ hm)
    simp [partitionAt, hx, ih hxs]

theorem colon_after_hash_found (a r : List Char) (h1 : '#' ∉ a) (h2 : ':' ∉ a) :
    (partitionAt ':' (partitionAt '#' (a ++ ':' :: r)).1).2.1 = true := by
  induction a with
  | nil =>
    rw [List.nil_append, partitionAt]
    rw [if_neg (by decide)]
    simp [partitionAt]
  | cons x xs ih =>
    have hx1 : x ≠ '#' := by intro hEq; exact h1 (by simp [hEq])
    have hx2 : x ≠ ':' := by intro hEq; exact h2 (by simp [hEq])
    have hxs1 : '#' ∉ xs := fun hm => h1 (List.mem_cons_of_mem _ hm)
    have hxs2 : ':' ∉ xs := fun hm => h2 (List.mem_cons_of_mem _ hm)
    rw [List.cons_append, partitionAt, if_neg hx1]
    simp only
    rw [partitionAt, if_neg hx2]
    simpa using ih hxs1 hxs2

/-- `rstripWs` reconstruction: the stripped tail is all whitespace. -/
theorem rstripWs_recon (m : List Char) :
    ∃ w, m = rstripWs m ++ w ∧ ∀ c ∈ w, isPyWs c = true := by
  refine ⟨(m.reverse.takeWhile isPyWs).reverse, ?_, ?_⟩
  · rw [rstripWs]
    conv_lhs => rw [← m.reverse_reverse, ← List.takeWhile_append_dropWhile (p := isPyWs) (l := m.reverse)]
    rw [List.reverse_append]
  · intro c hc
    exact List.mem_takeWhile_imp (List.mem_reverse.mp hc)

/-- `rstripSp` reconstruction. -/
theorem rstripSp_recon (m : List Char) :
    ∃ w, m = rstripSp m ++ w ∧ ∀ c ∈ w, (c == ' ') = true := by
  refine ⟨(m.reverse.takeWhile (· == ' ')).reverse, ?_, ?_⟩
  · rw [rstripSp]
    conv_lhs => rw [← m.reverse_reverse,
      ← List.takeWhile_append_dropWhile (p := (· == ' ')) (l := m.reverse)]
    rw [List.reverse_append]
  · intro c hc
    exact List.mem_takeWhile_imp (p := (fun x => x == ' ')) (List.mem_reverse.mp hc)

/-- `value_core = value_core.rstrip(' ') + value_suffix`. -/
theorem rstripSp_append_drop (m : List Char) :
    rstripSp m ++ m.drop (rstripSp m).length = m := by
  obtain ⟨w, hw, -⟩ := rstripSp_recon m
  have hpre : rstripSp m <+: m := ⟨w, hw.symm⟩
  conv_rhs => rw [← List.take_append_drop (rstripSp m).length m]
  rw [← List.prefix_iff_eq_take.mp hpre]

/-- Strip decomposition: every string is all-whitespace padding around its
stripped core. -/
theorem stripWs_recon (l : List Char) :
    ∃ u w, l = u ++ stripWs l ++ w ∧ (∀ c ∈ u, isPyWs c = true) ∧
      ∀ c ∈ w, isPyWs c = true := by
  obtain ⟨w, hw, hwws⟩ := rstripWs_recon (lstripWs l)
  refine ⟨l.takeWhile isPyWs, w, ?_, ?_, hwws⟩
  · conv_lhs => rw [← List.takeWhile_append_dropWhile (p := isPyWs) (l := l)]
    rw [stripWs, List.append_assoc, ← hw]
    rfl
  · intro c hc
    exact List.mem_takeWhile_imp hc

theorem dropWhile_ws_append (a b : List Char) (hb : ∀ c ∈ b, isPyWs c = true) :
    (a ++ b).reverse.dropWhile isPyWs = a.reverse.dropWhile isPyWs := by
  rw [List.reverse_append, List.dropWhile_append]
  split
  · rename_i hemp
    rfl
  · rename_i hemp
    exfalso
    apply hemp
    rw [List.dropWhile_eq_nil_iff.mpr]
    · simp
    · intro c hc
      exact hb c (List.mem_reverse.mp hc)

/-- An all-whitespace suffix does not change `rstrip`. -/
theorem rstripWs_append_ws (a b : List Char) (hb : ∀ c ∈ b, isPyWs c = true) :
    rstripWs (a ++ b) = rstripWs a := by
  rw [rstripWs, rstripWs, dropWhile_ws_append a b hb]

/-- An all-whitespace suffix does not change `strip`. -/
theorem stripWs_append_ws (a b : List Char) (hb : ∀ c ∈ b, isPyWs c = true) :
    stripWs (a ++ b) = stripWs a := by
  rw [stripWs, stripWs]
  by_cases hemp : lstripWs a = []
  · have hall : ∀ c ∈ a, isPyWs c = true := by
      intro c hc
      by_contra hno
      have := List.dropWhile_eq_nil_iff.mp hemp c hc
      simp_all
    have h1 : lstripWs (a ++ b) = [] := by
      rw [lstripWs, List.dropWhile_eq_nil_iff]
      intro c hc
      rcases List.mem_append.mp hc with h | h
      · exact hall c h
      · exact hb c h
    rw [h1, hemp]
  · have h1 : lstripWs (a ++ b) = lstripWs a ++ b := by
      rw [lstripWs, List.dropWhile_append]
      rw [if_neg (by simpa [lstripWs, List.isEmpty_iff] using hemp)]
      rfl
    rw [h1]
    exact rstripWs_append_ws _ _ hb

theorem lineBody_newline_recon (L : List Char) : lineBody L ++ lineNewline L = L := by
  rw [lineBody, lineNewline]
  by_cases h1 : ['\r', '\n'].isSuffixOf L = true
  · rw [if_pos h1, if_pos h1]
    obtain ⟨pre, hpre⟩ := List.isSuffixOf_iff_suffix.mp h1
    rw [← hpre]
    rw [show pre ++ ['\r', '\n'] = (pre ++ ['\r']) ++ ['\n'] by simp]
    rw [List.dropLast_concat, List.dropLast_concat]
    simp
  · rw [if_neg h1, if_neg h1]
    by_cases h2 : ['\n'].isSuffixOf L = true
    · rw [if_pos h2, if_pos h2]
      obtain ⟨pre, hpre⟩ := List.isSuffixOf_iff_suffix.mp h2
      rw [← hpre, List.dropLast_concat]
    · rw [if_neg h2, if_neg h2]
      simp

theorem lineNewline_ws (L : List Char) : ∀ c ∈ lineNewline L, isPyWs c = true := by
  intro c hc
  rw [lineNewline] at hc
  split_ifs at hc <;> simp at hc
  · rcases hc with rfl | rfl <;> decide
  · subst hc; decide

theorem lineBody_recon (L : List Char) :
    lineBody L = lineBeforeComment L ++ (if lineSep L then '#' :: lineComment L else []) := by
  by_cases hsep : lineSep L = true
  · rw [if_pos hsep]
    exact partitionAt_found_recon '#' (lineBody L) hsep
  · rw [if_neg hsep]
    have hns : (partitionAt '#' (lineBody L)).2.1 = false := by simpa using hsep
    have := partitionAt_not_found '#' (lineBody L) hns
    rw [lineBeforeComment, this]
    simp

/-- C2's preservation core, original side: a line whose pre-comment part
contains a colon decomposes into key, colon, value padding, value token,
trailing spaces, comment and terminator. -/
theorem line_recon (L : List Char) (h : lineHasColon L = true) :
    L = lineKey L ++ ':' :: (lineValPad L ++ (rstripSp (lineValCore L) ++ (lineValTail L ++
      ((if lineSep L then '#' :: lineComment L else []) ++ lineNewline L)))) := by
  have hkv : lineBeforeComment L = lineKey L ++ ':' :: lineValPart L :=
    partitionAt_found_recon ':' (lineBeforeComment L) h
  have hpc : lineValPart L = lineValPad L ++ lineValCore L := by
    rw [lineValPad, lineValCore]
    exact (List.takeWhile_append_dropWhile _ _).symm
  have hcv : lineValCore L = rstripSp (lineValCore L) ++ lineValTail L :=
    (rstripSp_append_drop _).symm
  conv_lhs => rw [← lineBody_newline_recon L, lineBody_recon L, hkv, hpc, hcv]
  simp

/-- C2's preservation core, rewritten side. -/
theorem rewrite_line_eq (L v : List Char) (h : lineHasColon L = true) :
    rewrite_line L v = lineKey L ++ ':' :: (lineValPad L ++
      ((lineQuote L ++ v ++ lineQuote L) ++ (lineValTail L ++
      ((if lineSep L then '#' :: lineComment L else []) ++ lineNewline L)))) := by
  rw [rewrite_line, if_neg (by simp [h])]
  simp

theorem findIncLineAux_post (ls : List (List Char)) (idx e j : Nat)
    (h : findIncLineAux ls idx e = some j) :
    idx ≤ j ∧ j - idx < ls.length ∧
      startsWithLit "incremental:".toList (stripWs (ls.getD (j - idx) [])) = true := by
  induction ls generalizing idx with
  | nil => simp [findIncLineAux] at h
  | cons line rest ih =>
    rw [findIncLineAux] at h
    by_cases h1 : countIndent line ≤ e ∧ startsWithLit "- ".toList (stripWs line) = true
    · rw [if_pos h1] at h
      exact absurd h (by simp)
    rw [if_neg h1] at h
    by_cases h2 : countIndent line ≤ e ∧ stripWs line = []
    · rw [if_pos h2] at h
      obtain ⟨ha, hb, hc⟩ := ih (idx + 1) h
      refine ⟨by omega, by simp only [List.length_cons]; omega, ?_⟩
      rw [show j - idx = (j - (idx + 1)) + 1 by omega]
      simpa using hc
    rw [if_neg h2] at h
    by_cases h3 : countIndent line ≤ e ∧ stripWs line ≠ [] ∧
        ¬ startsWithLit "- ".toList (stripWs line) = true ∧
        ¬ startsWithLit "#".toList (stripWs line) = true
    · rw [if_pos h3] at h
      exact absurd h (by simp)
    rw [if_neg h3] at h
    by_cases h4 : startsWithLit "incremental:".toList (stripWs line) = true
    · rw [if_pos h4] at h
      obtain rfl : idx = j := Option.some.inj h
      refine ⟨le_refl _, by simp, ?_⟩
      simpa using h4
    · rw [if_neg h4] at h
      obtain ⟨ha, hb, hc⟩ := ih (idx + 1) h
      refine ⟨by omega, by simp only [List.length_cons]; omega, ?_⟩
      rw [show j - idx = (j - (idx + 1)) + 1 by omega]
      simpa using hc

theorem find_incremental_line_post (lines : List (List Char)) (s e j : Nat)
    (h : find_incremental_line lines s e = some j) :
    j < lines.length ∧
      startsWithLit "incremental:".toList (stripWs (lines.getD j [])) = true := by
  obtain ⟨h1, h2, h3⟩ := findIncLineAux_post _ _ _ _ h
  rw [List.length_drop] at h2
  refine ⟨by omega, ?_⟩
  have hgd : (lines.drop s).getD (j - s) [] = lines.getD j [] := by
    rw [List.getD_eq_getElem?_getD, List.getD_eq_getElem?_getD, List.getElem?_drop]
    rw [show s + (j - s) = j by omega]
  rwa [hgd] at h3

theorem findTopIncIdx_post (ls : List (List Char)) (i j : Nat)
    (h : findTopIncIdx ls i = some j) :
    i ≤ j ∧ j - i < ls.length ∧
      startsWithLit "incremental:".toList (stripWs (ls.getD (j - i) [])) = true := by
  induction ls generalizing i with
  | nil => simp [findTopIncIdx] at h
  | cons line rest ih =>
    rw [findTopIncIdx] at h
    by_cases h1 : startsWithLit "variants:".toList (stripWs line) = true
    · rw [if_pos h1] at h
      exact absurd h (by simp)
    rw [if_neg h1] at h
    by_cases h2 : startsWithLit "incremental:".toList (stripWs line) = true
    · rw [if_pos h2] at h
      obtain rfl : i = j := Option.some.inj h
      refine ⟨le_refl _, by simp, ?_⟩
      simpa using h2
    · rw [if_neg h2] at h
      obtain ⟨ha, hb, hc⟩ := ih (i + 1) h
      refine ⟨by omega, by simp only [List.length_cons]; omega, ?_⟩
      rw [show j - i = (j - (i + 1)) + 1 by omega]
      simpa using hc

/-- A line whose stripped form starts with `incremental:` has a colon in
its pre-comment part, so `rewrite_line` takes its rewriting branch. -/
theorem startsWith_incremental_colon (L : List Char)
    (h : startsWithLit "incremental:".toList (stripWs L) = true) :
    lineHasColon L = true := by
  have hb : stripWs (lineBody L) = stripWs L := by
    conv_rhs => rw [← lineBody_newline_recon L]
    rw [stripWs_append_ws _ _ (lineNewline_ws L)]
  obtain ⟨m, hm⟩ : "incremental:".toList <+: stripWs L := by
    simpa [startsWithLit] using h
  obtain ⟨u, w, hrec, hu, hw⟩ := stripWs_recon (lineBody L)
  rw [hb, ← hm] at hrec
  have hform : lineBody L = (u ++ "incremental".toList) ++ ':' :: (m ++ w) := by
    rw [hrec]
    rw [show "incremental:".toList = "incremental".toList ++ [':'] by decide]
    simp
  have h1 : '#' ∉ u ++ "incremental".toList := by
    intro hmem
    rcases List.mem_append.mp hmem with hmem | hmem
    · exact absurd (hu _ hmem) (by decide)
    · revert hmem
      decide
  have h2 : ':' ∉ u ++ "incremental".toList := by
    intro hmem
    rcases List.mem_append.mp hmem with hmem | hmem
    · exact absurd (hu _ hmem) (by decide)
    · revert hmem
      decide
  rw [lineHasColon, lineBeforeComment, hform]
  exact colon_after_hash_found _ _ h1 h2

theorem updFinish_ok (raw : List Char) (ls : List (List Char)) :
    (updFinish raw ls).ok = true := by
  rw [updFinish]
  split <;> rfl

/-- When the control flow locates an existing `incremental:` line at index
`i`, the function performs exactly the in-place rewrite of that line. -/
theorem locatedIncIdx_spec (raw : List Char) (parsed : Option PyVal) (cfg : Config)
    (v : List Char) (i : Nat) (hloc : locatedIncIdx raw parsed cfg v = some i) :
    i < (pySplitlinesKeep raw).length ∧
    startsWithLit "incremental:".toList (stripWs ((pySplitlinesKeep raw).getD i [])) = true ∧
    update_config_incremental raw parsed cfg v =
      updFinish raw ((pySplitlinesKeep raw).set i
        (rewrite_line ((pySplitlinesKeep raw).getD i []) v)) := by
  rw [locatedIncIdx] at hloc
  rw [update_config_incremental]
  by_cases hv : v = []
  · rw [if_pos hv] at hloc
    exact absurd hloc (by simp)
  rw [if_neg hv] at hloc ⊢
  cases hgv : getVariants parsed with
  | none =>
    simp only [hgv] at hloc ⊢
    obtain ⟨-, hlen, hsw⟩ := findTopIncIdx_post _ _ _ hloc
    rw [hloc]
    simpa using ⟨by simpa using hlen, by simpa using hsw⟩
  | some dvs =>
    obtain ⟨d, vs⟩ := dvs
    simp only [hgv] at hloc ⊢
    cases hmi : computeMatchIdx vs d cfg with
    | none =>
      simp only [hmi] at hloc
      exact absurd hloc (by simp)
    | some mi =>
      simp only [hmi] at hloc ⊢
      by_cases hcur : incAlreadyCurrent vs mi v = true
      · rw [if_pos hcur] at hloc
        exact absurd hloc (by simp)
      rw [if_neg hcur] at hloc ⊢
      cases hvl : findVariantsLineIdx (pySplitlinesKeep raw) 0 with
      | none =>
        simp only [hvl] at hloc
        exact absurd hloc (by simp)
      | some vIdx =>
        simp only [hvl] at hloc ⊢
        cases hvb : findVariantBlockAux ((pySplitlinesKeep raw).drop (vIdx + 1)) (vIdx + 1)
            (countIndent ((pySplitlinesKeep raw).getD vIdx [])) (-1) (mi : Int) with
        | none =>
          simp only [hvb] at hloc
          exact absurd hloc (by simp)
        | some ts =>
          obtain ⟨tIndent, startIdx⟩ := ts
          simp only [hvb] at hloc ⊢
          obtain ⟨hlen, hsw⟩ := find_incremental_line_post _ _ _ _ hloc
          rw [hloc]
          exact ⟨hlen, hsw, rfl⟩

/-- C2: when `update_config_incremental` locates an existing `incremental`
line for the matching variant (or the top-level field), the rewritten
document is the original with exactly that one line replaced — every other
line is identical — and the rewritten line keeps the original's leading
whitespace and key text (in `lineKey`), value padding, quote style,
trailing spaces, trailing comment and line terminator, replacing only the
value token. -/
theorem update_config_frame (raw : List Char) (parsed : Option PyVal) (cfg : Config)
    (v : List Char) (i : Nat)
    (hloc : locatedIncIdx raw parsed cfg v = some i) :
    i < (pySplitlinesKeep raw).length ∧
    (update_config_incremental raw parsed cfg v).ok = true ∧
    (update_config_incremental raw parsed cfg v).written =
      (if ((pySplitlinesKeep raw).set i
            (rewrite_line ((pySplitlinesKeep raw).getD i []) v)).flatten = raw
        then Option.none
        else some (((pySplitlinesKeep raw).set i
            (rewrite_line ((pySplitlinesKeep raw).getD i []) v)).flatten)) ∧
    (∀ j, j ≠ i →
      ((pySplitlinesKeep raw).set i
          (rewrite_line ((pySplitlinesKeep raw).getD i []) v))[j]? =
        (pySplitlinesKeep raw)[j]?) ∧
    lineHasColon ((pySplitlinesKeep raw).getD i []) = true ∧
    (pySplitlinesKeep raw).getD i [] =
      lineKey ((pySplitlinesKeep raw).getD i []) ++ ':' ::
        (lineValPad ((pySplitlinesKeep raw).getD i []) ++
          (rstripSp (lineValCore ((pySplitlinesKeep raw).getD i [])) ++
            (lineValTail ((pySplitlinesKeep raw).getD i []) ++
              ((if lineSep ((pySplitlinesKeep raw).getD i []) then
                  '#' :: lineComment ((pySplitlinesKeep raw).getD i []) else []) ++
                lineNewline ((pySplitlinesKeep raw).getD i []))))) ∧
    rewrite_line ((pySplitlinesKeep raw).getD i []) v =
      lineKey ((pySplitlinesKeep raw).getD i []) ++ ':' ::
        (lineValPad ((pySplitlinesKeep raw).getD i []) ++
          ((lineQuote ((pySplitlinesKeep raw).getD i []) ++ v ++
              lineQuote ((pySplitlinesKeep raw).getD i [])) ++
            (lineValTail ((pySplitlinesKeep raw).getD i []) ++
              ((if lineSep ((pySplitlinesKeep raw).getD i []) then
                  '#' :: lineComment ((pySplitlinesKeep raw).getD i []) else []) ++
                lineNewline ((pySplitlinesKeep raw).getD i []))))) := by
  obtain ⟨hlen, hsw, hupd⟩ := locatedIncIdx_spec raw parsed cfg v i hloc
  have hcolon := startsWith_incremental_colon _ hsw
  refine ⟨hlen, ?_, ?_, ?_, hcolon, line_recon _ hcolon, rewrite_line_eq _ v hcolon⟩
  · rw [hupd]
    exact updFinish_ok _ _
  · rw [hupd, updFinish]
    split_ifs <;> rfl
  · intro j hj
    exact List.getElem?_set_ne (Ne.symm hj)

/-- Witness for C2 on the fixture: the first variant's `incremental` line
(line 3) is located and rewritten. -/
theorem update_config_frame_witness :
    3 < (pySplitlinesKeep sampleRaw).length ∧
    (update_config_incremental sampleRaw sampleParsed sampleCfg "333".toList).ok = true ∧
    (update_config_incremental sampleRaw sampleParsed sampleCfg "333".toList).written =
      (if ((pySplitlinesKeep sampleRaw).set 3
            (rewrite_line ((pySplitlinesKeep sampleRaw).getD 3 []) "333".toList)).flatten =
          sampleRaw
        then Option.none
        else some (((pySplitlinesKeep sampleRaw).set 3
            (rewrite_line ((pySplitlinesKeep sampleRaw).getD 3 []) "333".toList)).flatten)) ∧
    (∀ j, j ≠ 3 →
      ((pySplitlinesKeep sampleRaw).set 3
          (rewrite_line ((pySplitlinesKeep sampleRaw).getD 3 []) "333".toList))[j]? =
        (pySplitlinesKeep sampleRaw)[j]?) ∧
    lineHasColon ((pySplitlinesKeep sampleRaw).getD 3 []) = true ∧
    (pySplitlinesKeep sampleRaw).getD 3 [] =
      lineKey ((pySplitlinesKeep sampleRaw).getD 3 []) ++ ':' ::
        (lineValPad ((pySplitlinesKeep sampleRaw).getD 3 []) ++
          (rstripSp (lineValCore ((pySplitlinesKeep sampleRaw).getD 3 [])) ++
            (lineValTail ((pySplitlinesKeep sampleRaw).getD 3 []) ++
              ((if lineSep ((pySplitlinesKeep sampleRaw).getD 3 []) then
                  '#' :: lineComment ((pySplitlinesKeep sampleRaw).getD 3 []) else []) ++
                lineNewline ((pySplitlinesKeep sampleRaw).getD 3 []))))) ∧
    rewrite_line ((pySplitlinesKeep sampleRaw).getD 3 []) "333".toList =
      lineKey ((pySplitlinesKeep sampleRaw).getD 3 []) ++ ':' ::
        (lineValPad ((pySplitlinesKeep sampleRaw).getD 3 []) ++
          ((lineQuote ((pySplitlinesKeep sampleRaw).getD 3 []) ++ "333".toList ++
              lineQuote ((pySplitlinesKeep sampleRaw).getD 3 [])) ++
            (lineValTail ((pySplitlinesKeep sampleRaw).getD 3 []) ++
              ((if lineSep ((pySplitlinesKeep sampleRaw).getD 3 []) then
                  '#' :: lineComment ((pySplitlinesKeep sampleRaw).getD 3 []) else []) ++
                lineNewline ((pySplitlinesKeep sampleRaw).getD 3 []))))) :=
  update_config_frame sampleRaw sampleParsed sampleCfg "333".toList 3 (by decide)

/-- C8: whenever `update_config_incremental` cannot locate its rewrite
target — no matching variant, no `variants:` line, no locatable variant
block, or no top-level `incremental:` line — it returns `False` and
performs no write at all; more generally, every `False` return leaves the
file untouched. -/
theorem update_config_not_found_no_write (raw : List Char) (parsed : Option PyVal)
    (cfg : Config) (v : List Char) :
    ((update_config_incremental raw parsed cfg v).ok = false →
      (update_config_incremental raw parsed cfg v).written = Option.none) ∧
    (∀ d vs, getVariants parsed = some (d, vs) →
      computeMatchIdx vs d cfg = Option.none →
      update_config_incremental raw parsed cfg v = { ok := false, written := Option.none }) ∧
    (∀ d vs mi, getVariants parsed = some (d, vs) →
      computeMatchIdx vs d cfg = some mi →
      incAlreadyCurrent vs mi v = false →
      findVariantsLineIdx (pySplitlinesKeep raw) 0 = Option.none →
      update_config_incremental raw parsed cfg v = { ok := false, written := Option.none }) ∧
    (∀ d vs mi vIdx, getVariants parsed = some (d, vs) →
      computeMatchIdx vs d cfg = some mi →
      incAlreadyCurrent vs mi v = false →
      findVariantsLineIdx (pySplitlinesKeep raw) 0 = some vIdx →
      findVariantBlockAux ((pySplitlinesKeep raw).drop (vIdx + 1)) (vIdx + 1)
        (countIndent ((pySplitlinesKeep raw).getD vIdx [])) (-1) (mi : Int) = Option.none →
      update_config_incremental raw parsed cfg v = { ok := false, written := Option.none }) ∧
    (getVariants parsed = Option.none →
      findTopIncIdx (pySplitlinesKeep raw) 0 = Option.none →
      update_config_incremental raw parsed cfg v = { ok := false, written := Option.none }) := by
  refine ⟨?_, ?_, ?_, ?_, ?_⟩
  · intro hok
    rw [update_config_incremental] at hok ⊢
    by_cases hv : v = []
    · rw [if_pos hv]
    rw [if_neg hv] at hok ⊢
    cases hgv : getVariants parsed with
    | none =>
      simp only [hgv] at hok ⊢
      cases ht : findTopIncIdx (pySplitlinesKeep raw) 0 with
      | none => rfl
      | some incIdx =>
        simp only [ht] at hok
        rw [updFinish_ok] at hok
        cases hok
    | some dvs =>
      obtain ⟨d, vs⟩ := dvs
      simp only [hgv] at hok ⊢
      cases hmi : computeMatchIdx vs d cfg with
      | none => rfl
      | some mi =>
        simp only [hmi] at hok ⊢
        by_cases hcur : incAlreadyCurrent vs mi v = true
        · rw [if_pos hcur] at hok
          cases hok
        rw [if_neg hcur] at hok ⊢
        cases hvl : findVariantsLineIdx (pySplitlinesKeep raw) 0 with
        | none => rfl
        | some vIdx =>
          simp only [hvl] at hok ⊢
          cases hvb : findVariantBlockAux ((pySplitlinesKeep raw).drop (vIdx + 1)) (vIdx + 1)
              (countIndent ((pySplitlinesKeep raw).getD vIdx [])) (-1) (mi : Int) with
          | none => rfl
          | some ts =>
            obtain ⟨tIndent, startIdx⟩ := ts
            simp only [hvb] at hok
            cases hfi : find_incremental_line (pySplitlinesKeep raw) startIdx tIndent with
            | none =>
              simp only [hfi] at hok
              rw [updFinish_ok] at hok
              cases hok
            | some incIdx =>
              simp only [hfi] at hok
              rw [updFinish_ok] at hok
              cases hok
  · intro d vs hgv hmi
    rw [update_config_incremental]
    by_cases hv : v = []
    · rw [if_pos hv]
    · rw [if_neg hv]
      simp only [hgv, hmi]
  · intro d vs mi hgv hmi hcur hvl
    rw [update_config_incremental]
    by_cases hv : v = []
    · rw [if_pos hv]
    · rw [if_neg hv]
      simp only [hgv, hmi, hcur, hvl]
      rw [if_neg (by simp [hcur])]
  · intro d vs mi vIdx hgv hmi hcur hvl hvb
    rw [update_config_incremental]
    by_cases hv : v = []
    · rw [if_pos hv]
    · rw [if_neg hv]
      simp only [hgv, hmi, hvl]
      rw [if_neg (by simp [hcur])]
      simp only [hvb]
  · intro hgv ht
    rw [update_config_incremental]
    by_cases hv : v = []
    · rw [if_pos hv]
    · rw [if_neg hv]
      simp only [hgv, ht]

/-- Witness for C8: a config without the `incremental` key anywhere is
left unwritten with a `False` return. -/
theorem update_config_not_found_no_write_witness :
    ((update_config_incremental "model: X\n".toList Option.none sampleCfg "333".toList).ok =
        false →
      (update_config_incremental "model: X\n".toList Option.none sampleCfg
          "333".toList).written = Option.none) ∧
    (∀ d vs, getVariants Option.none = some (d, vs) →
      computeMatchIdx vs d sampleCfg = Option.none →
      update_config_incremental "model: X\n".toList Option.none sampleCfg "333".toList =
        { ok := false, written := Option.none }) ∧
    (∀ d vs mi, getVariants Option.none = some (d, vs) →
      computeMatchIdx vs d sampleCfg = some mi →
      incAlreadyCurrent vs mi "333".toList = false →
      findVariantsLineIdx (pySplitlinesKeep "model: X\n".toList) 0 = Option.none →
      update_config_incremental "model: X\n".toList Option.none sampleCfg "333".toList =
        { ok := false, written := Option.none }) ∧
    (∀ d vs mi vIdx, getVariants Option.none = some (d, vs) →
      computeMatchIdx vs d sampleCfg = some mi →
      incAlreadyCurrent vs mi "333".toList = false →
      findVariantsLineIdx (pySplitlinesKeep "model: X\n".toList) 0 = some vIdx →
      findVariantBlockAux ((pySplitlinesKeep "model: X\n".toList).drop (vIdx + 1)) (vIdx + 1)
        (countIndent ((pySplitlinesKeep "model: X\n".toList).getD vIdx [])) (-1) (mi : Int) =
        Option.none →
      update_config_incremental "model: X\n".toList Option.none sampleCfg "333".toList =
        { ok := false, written := Option.none }) ∧
    (getVariants Option.none = Option.none →
      findTopIncIdx (pySplitlinesKeep "model: X\n".toList) 0 = Option.none →
      update_config_incremental "model: X\n".toList Option.none sampleCfg "333".toList =
        { ok := false, written := Option.none }) :=
  update_config_not_found_no_write "model: X\n".toList Option.none sampleCfg "333".toList

/-! ### `splitlines` round-trip machinery

`update_config_incremental` splits, edits one line and re-joins; for the
idempotence claim the second run must re-split the joined text into the
same line list.  The following develops the well-formedness invariant of
`splitlines(keepends=True)` output under which join and split are mutually
inverse. -/

theorem splitF_nil (f : Nat) (acc : List Char) :
    splitlinesAuxF f [] acc = if acc.isEmpty then [] else [acc.reverse] := by
  cases f <;> rfl

theorem splitF_cons (f : Nat) (c : Char) (rest acc : List Char) :
    splitlinesAuxF (f + 1) (c :: rest) acc =
      if isPyLineBreak c then
        if c = '\r' ∧ rest.head? = some '\n' then
          (acc.reverse ++ ['\r', '\n']) :: splitlinesAuxF f rest.tail []
        else (acc.reverse ++ [c]) :: splitlinesAuxF f rest []
      else splitlinesAuxF f rest (c :: acc) := rfl

theorem splitF_fuel (f f' : Nat) (l acc : List Char)
    (h : l.length ≤ f) (h' : l.length ≤ f') :
    splitlinesAuxF f l acc = splitlinesAuxF f' l acc := by
  induction f generalizing f' l acc with
  | zero =>
    have : l = [] := by
      cases l with
      | nil => rfl
      | cons c r => simp at h
    subst this
    rw [splitF_nil, splitF_nil]
  | succ g ih =>
    cases l with
    | nil => rw [splitF_nil, splitF_nil]
    | cons c rest =>
      cases f' with
      | zero => simp at h'
      | succ g' =>
        rw [splitF_cons, splitF_cons]
        simp only [List.length_cons] at h h'
        by_cases hbr : isPyLineBreak c = true
        · rw [if_pos hbr, if_pos hbr]
          by_cases hrn : c = '\r' ∧ rest.head? = some '\n'
          · rw [if_pos hrn, if_pos hrn,
              ih g' rest.tail [] (by simp [List.length_tail]; omega)
                (by simp [List.length_tail]; omega)]
          · rw [if_neg hrn, if_neg hrn, ih g' rest [] (by omega) (by omega)]
        · rw [if_neg hbr, if_neg hbr, ih g' rest (c :: acc) (by omega) (by omega)]

theorem splitF_join (f : Nat) (l acc : List Char) (h : l.length ≤ f) :
    (splitlinesAuxF f l acc).flatten = acc.reverse ++ l := by
  induction f generalizing l acc with
  | zero =>
    have : l = [] := by
      cases l with
      | nil => rfl
      | cons c r => simp at h
    subst this
    rw [splitF_nil]
    split <;> rename_i hemp <;> simp_all
  | succ g ih =>
    cases l with
    | nil =>
      rw [splitF_nil]
      split <;> rename_i hemp <;> simp_all
    | cons c rest =>
      rw [splitF_cons]
      simp only [List.length_cons] at h
      by_cases hbr : isPyLineBreak c = true
      · rw [if_pos hbr]
        by_cases hrn : c = '\r' ∧ rest.head? = some '\n'
        · rw [if_pos hrn]
          obtain ⟨rfl, hhd⟩ := hrn
          cases rest with
          | nil => simp at hhd
          | cons d rest2 =>
            obtain rfl : d = '\n' := by simpa using hhd
            rw [List.flatten_cons, List.tail_cons, ih rest2 [] (by simp at h ⊢; omega)]
            simp
        · rw [if_neg hrn, List.flatten_cons, ih rest [] (by omega)]
          simp
      · rw [if_neg hbr, ih rest (c :: acc) (by omega)]
        simp

/-- The joined output of `pySplitlinesKeep` is the original string. -/
theorem join_pySplitlinesKeep (s : List Char) : (pySplitlinesKeep s).flatten = s := by
  simpa using splitF_join s.length s [] (le_refl _)

theorem splitConsume (b : List Char) (hb : breakFree b) :
    ∀ (l acc : List Char) (f : Nat), b.length + l.length ≤ f →
      splitlinesAuxF f (b ++ l) acc = splitlinesAuxF (f - b.length) l (b.reverse ++ acc) := by
  induction b with
  | nil =>
    intro l acc f hf
    simp
  | cons x b' ih =>
    intro l acc f hf
    have hx : isPyLineBreak x = false := hb x (by simp)
    have hb' : breakFree b' := fun c hc => hb c (List.mem_cons_of_mem _ hc)
    cases f with
    | zero => simp at hf
    | succ g =>
      rw [List.cons_append, splitF_cons, if_neg (by simp [hx])]
      rw [ih hb' l (x :: acc) g (by simp at hf; omega)]
      have hacc : (x :: b').reverse ++ acc = b'.reverse ++ (x :: acc) := by simp
      rw [List.length_cons, Nat.succ_sub_succ, hacc]

theorem splitConsumeLine (b t l : List Char) (hb : breakFree b)
    (ht : t = ['\r', '\n'] ∨
      ∃ c, t = [c] ∧ isPyLineBreak c = true ∧ (c = '\r' → l.head? ≠ some '\n'))
    (f : Nat) (hf : (b ++ t ++ l).length ≤ f) :
    splitlinesAuxF f (b ++ (t ++ l)) [] =
      (b ++ t) :: splitlinesAuxF l.length l [] := by
  rw [splitConsume b hb (t ++ l) [] f (by simp at hf ⊢; omega)]
  rcases ht with rfl | ⟨c, rfl, hc, hcr⟩
  · -- t = ['\r', '\n']
    have h2 : 2 + l.length ≤ f - b.length := by simp at hf; omega
    cases hfb : f - b.length with
    | zero => omega
    | succ g =>
      rw [show (['\r', '\n'] ++ l) = '\r' :: ('\n' :: l) by simp, splitF_cons]
      rw [if_pos (by decide), if_pos (by simp)]
      rw [splitF_fuel g l.length ('\n' :: l).tail [] (by simp; omega) (by simp)]
      simp
  · -- t = [c]
    have h1 : 1 + l.length ≤ f - b.length := by simp at hf; omega
    cases hfb : f - b.length with
    | zero => omega
    | succ g =>
      rw [show ([c] ++ l) = c :: l by simp, splitF_cons, if_pos hc]
      rw [if_neg ?hneg]
      case hneg =>
        rintro ⟨rfl, hhd⟩
        exact hcr rfl hhd
      rw [splitF_fuel g l.length l [] (by omega) (le_refl _)]
      simp

theorem splitTerminal (b : List Char) (hb : breakFree b) (hne : b ≠ [])
    (f : Nat) (hf : b.length ≤ f) :
    splitlinesAuxF f b [] = [b] := by
  have := splitConsume b hb [] [] f (by simpa using hf)
  rw [List.append_nil] at this
  rw [this, splitF_nil]
  rw [if_neg (by simpa [List.isEmpty_iff] using hne)]
  simp

/-- Splitting the join of a well-formed line list recovers the list. -/
theorem split_join_wf (ls : List (List Char)) (hwf : wfLines ls) :
    pySplitlinesKeep ls.flatten = ls := by
  induction ls with
  | nil => rfl
  | cons u rest ih =>
    obtain ⟨hne, hslot, hwfr⟩ := hwf
    rcases hslot with ⟨b, t, rfl, hb, ht⟩ | ⟨rfl, hbf⟩
    · rw [List.flatten_cons, pySplitlinesKeep, List.append_assoc]
      rw [splitConsumeLine b t rest.flatten hb ht _ (by simp)]
      rw [show splitlinesAuxF rest.flatten.length rest.flatten [] = pySplitlinesKeep rest.flatten
        from rfl, ih hwfr]
    · rw [List.flatten_cons, List.flatten_nil, List.append_nil, pySplitlinesKeep]
      exact splitTerminal u hbf hne _ (le_refl _)

theorem wfLines_splitF (f : Nat) :
    ∀ (l acc : List Char), l.length ≤ f → breakFree acc.reverse →
      wfLines (splitlinesAuxF f l acc) := by
  induction f with
  | zero =>
    intro l acc hf hacc
    have : l = [] := by
      cases l with
      | nil => rfl
      | cons c r => simp at hf
    subst this
    rw [splitF_nil]
    split
    · trivial
    · rename_i hemp
      exact ⟨by simpa [List.isEmpty_iff] using hemp, Or.inr ⟨rfl, hacc⟩, trivial⟩
  | succ g ih =>
    intro l acc hf hacc
    cases l with
    | nil =>
      rw [splitF_nil]
      split
      · trivial
      · rename_i hemp
        exact ⟨by simpa [List.isEmpty_iff] using hemp, Or.inr ⟨rfl, hacc⟩, trivial⟩
    | cons c rest =>
      rw [splitF_cons]
      simp only [List.length_cons] at hf
      by_cases hbr : isPyLineBreak c = true
      · rw [if_pos hbr]
        by_cases hrn : c = '\r' ∧ rest.head? = some '\n'
        · rw [if_pos hrn]
          refine ⟨by simp, Or.inl ⟨acc.reverse, ['\r', '\n'], rfl, hacc, Or.inl rfl⟩, ?_⟩
          exact ih rest.tail [] (by simp [List.length_tail]; omega) (by intro x hx; simp at hx)
        · rw [if_neg hrn]
          refine ⟨by simp, Or.inl ⟨acc.reverse, [c], rfl, hacc, Or.inr ⟨c, rfl, hbr, ?_⟩⟩, ?_⟩
          · intro hcr hhd
            rw [splitF_join g rest [] (by omega)] at hhd
            exact hrn ⟨hcr, by simpa using hhd⟩
          · exact ih rest [] (by omega) (by intro x hx; simp at hx)
      · rw [if_neg hbr]
        apply ih rest (c :: acc) (by omega)
        intro x hx
        simp only [List.reverse_cons] at hx
        rcases List.mem_append.mp hx with hx | hx
        · exact hacc x hx
        · simp at hx
          subst hx
          simpa using hbr

/-- The output of `pySplitlinesKeep` is well-formed. -/
theorem wfLines_pySplitlinesKeep (s : List Char) : wfLines (pySplitlinesKeep s) :=
  wfLines_splitF s.length s [] (le_refl _) (by intro x hx; simp at hx)

theorem termedLine_congr (u next next' : List Char) (h : next.head? = next'.head?)
    (ht : termedLine u next) : termedLine u next' := by
  obtain ⟨b, t, rfl, hb, hcase⟩ := ht
  refine ⟨b, t, rfl, hb, ?_⟩
  rcases hcase with h1 | ⟨c, rfl, hc, hcr⟩
  · exact Or.inl h1
  · exact Or.inr ⟨c, rfl, hc, fun hcr' hh => hcr hcr' (h.trans hh)⟩

theorem wfLines_getD (ls : List (List Char)) (i : Nat) (hwf : wfLines ls)
    (hi : i < ls.length) :
    ls.getD i [] ≠ [] ∧
      (termedLine (ls.getD i []) ((ls.drop (i + 1)).flatten) ∨
        (ls.drop (i + 1) = [] ∧ breakFree (ls.getD i []))) := by
  induction ls generalizing i with
  | nil => simp at hi
  | cons u rest ih =>
    obtain ⟨hne, hslot, hwfr⟩ := hwf
    cases i with
    | zero => simpa using ⟨hne, hslot⟩
    | succ k => simpa using ih k hwfr (by simpa using hi)

theorem flatten_head_set (rs : List (List Char)) (k : Nat) (M : List Char)
    (hwf : wfLines rs) (hk : k < rs.length) (hM : M ≠ [])
    (hMh : M.head? = (rs.getD k []).head?) :
    ((rs.set k M).flatten).head? = (rs.flatten).head? := by
  induction rs generalizing k with
  | nil => simp at hk
  | cons u rest ih =>
    obtain ⟨hne, -, hwfr⟩ := hwf
    cases k with
    | zero =>
      simp only [List.set_cons_zero, List.flatten_cons]
      cases M with
      | nil => exact absurd rfl hM
      | cons m mr =>
        cases u with
        | nil => exact absurd rfl hne
        | cons u0 ur =>
          simp only [List.getD_eq_getElem?_getD] at hMh
          simp at hMh ⊢
          exact hMh
    | succ k' =>
      simp only [List.set_cons_succ, List.flatten_cons]
      cases u with
      | nil => exact absurd rfl hne
      | cons u0 ur => simp

theorem wfLines_set (ls : List (List Char)) (i : Nat) (M : List Char)
    (hwf : wfLines ls) (hi : i < ls.length) (hM0 : M ≠ [])
    (hMh : M.head? = (ls.getD i []).head?)
    (hslot : termedLine M ((ls.drop (i + 1)).flatten) ∨
      ((ls.drop (i + 1)) = [] ∧ breakFree M)) :
    wfLines (ls.set i M) := by
  induction ls generalizing i with
  | nil => simp at hi
  | cons u rest ih =>
    obtain ⟨hne, huslot, hwfr⟩ := hwf
    cases i with
    | zero =>
      refine ⟨hM0, ?_, hwfr⟩
      simpa using hslot
    | succ k =>
      have hk : k < rest.length := by simpa using hi
      refine ⟨hne, ?_, ih k hwfr hk (by simpa using hMh) (by simpa using hslot)⟩
      rcases huslot with hterm | ⟨hrest, hbf⟩
      · exact Or.inl (termedLine_congr _ _ _
          (flatten_head_set rest k M hwfr hk hM0 (by simpa using hMh)).symm hterm)
      · subst hrest
        simp at hk

theorem isPyLineBreak_ws (c : Char) (h : isPyLineBreak c = true) : isPyWs c = true := by
  rw [isPyLineBreak] at h
  simp only [Bool.or_eq_true, beq_iff_eq] at h
  rcases h with ((((((((rfl | rfl) | rfl) | rfl) | rfl) | rfl) | rfl) | rfl) | rfl) | rfl <;> rfl

theorem mem_partitionAt_fst {x c : Char} {l : List Char}
    (h : x ∈ (partitionAt c l).1) : x ∈ l := by
  induction l with
  | nil => simp [partitionAt] at h
  | cons y ys ih =>
    rw [partitionAt] at h
    by_cases hy : y = c
    · simp [hy] at h
    · simp only [if_neg hy] at h
      rcases List.mem_cons.mp h with rfl | h
      · simp
      · exact List.mem_cons_of_mem _ (ih h)

theorem mem_partitionAt_snd {x c : Char} {l : List Char}
    (h : x ∈ (partitionAt c l).2.2) : x ∈ l := by
  induction l with
  | nil => simp [partitionAt] at h
  | cons y ys ih =>
    rw [partitionAt] at h
    by_cases hy : y = c
    · simp only [if_pos hy] at h
      exact List.mem_cons_of_mem _ h
    · simp only [if_neg hy] at h
      exact List.mem_cons_of_mem _ (ih h)

theorem mem_partitionAt_found (c : Char) (l : List Char) (h : c ∈ l) :
    (partitionAt c l).2.1 = true := by
  induction l with
  | nil => simp at h
  | cons y ys ih =>
    rw [partitionAt]
    by_cases hy : y = c
    · simp [hy]
    · simp only [if_neg hy]
      rcases List.mem_cons.mp h with h1 | h1
      · exact absurd h1.symm hy
      · exact ih h1

theorem lineNewline_cases (L : List Char) :
    lineNewline L = [] ∨ lineNewline L = ['\n'] ∨ lineNewline L = ['\r', '\n'] := by
  rw [lineNewline]
  split_ifs <;> simp

theorem lineQuote_cases (L : List Char) :
    lineQuote L = [] ∨ lineQuote L = ['"'] ∨ lineQuote L = ['\''] := by
  rw [lineQuote]
  split_ifs <;> simp

theorem single_isPrefixOf_iff (q : Char) (l : List Char) :
    [q].isPrefixOf l = true ↔ l.head? = some q := by
  rw [List.isPrefixOf_iff_prefix]
  constructor
  · rintro ⟨t, rfl⟩
    rfl
  · intro h
    cases l with
    | nil => simp at h
    | cons x xs =>
      obtain rfl : x = q := by simpa using h
      exact ⟨xs, rfl⟩

theorem single_isSuffixOf_iff (q : Char) (l : List Char) :
    [q].isSuffixOf l = true ↔ l.getLast? = some q := by
  rw [List.isSuffixOf_iff_suffix]
  constructor
  · rintro ⟨t, rfl⟩
    simp
  · intro h
    have hne : l ≠ [] := by
      intro hcon
      rw [hcon] at h
      simp at h
    refine ⟨l.dropLast, ?_⟩
    have := List.dropLast_concat_getLast hne
    rwa [show l.getLast hne = q by
      have := List.getLast?_eq_getLast l hne
      rw [this] at h
      exact Option.some.inj h] at this

theorem lineBody_of_breakFree_append (B nl : List Char) (hB : breakFree B)
    (hnl : nl = [] ∨ nl = ['\n'] ∨ nl = ['\r', '\n']) :
    lineBody (B ++ nl) = B ∧ lineNewline (B ++ nl) = nl := by
  have hr : '\r' ∉ B := fun h => absurd (hB _ h) (by decide)
  have hn : '\n' ∉ B := fun h => absurd (hB _ h) (by decide)
  rcases hnl with rfl | rfl | rfl
  · have h1 : ¬ (['\r', '\n'].isSuffixOf (B ++ []) = true) := by
      rw [List.append_nil, List.isSuffixOf_iff_suffix]
      rintro ⟨pre, hpre⟩
      exact hn (by rw [← hpre]; simp)
    have h2 : ¬ (['\n'].isSuffixOf (B ++ []) = true) := by
      rw [List.append_nil, List.isSuffixOf_iff_suffix]
      rintro ⟨pre, hpre⟩
      exact hn (by rw [← hpre]; simp)
    rw [lineBody, lineNewline, if_neg h1, if_neg h1, if_neg h2, if_neg h2, List.append_nil]
    exact ⟨rfl, rfl⟩
  · have h1 : ¬ (['\r', '\n'].isSuffixOf (B ++ ['\n']) = true) := by
      rw [List.isSuffixOf_iff_suffix]
      rintro ⟨pre, hpre⟩
      have : pre ++ ['\r'] = B := List.append_cancel_right (by simpa using hpre)
      exact hr (by rw [← this]; simp)
    have h2 : ['\n'].isSuffixOf (B ++ ['\n']) = true := by
      rw [List.isSuffixOf_iff_suffix]
      exact ⟨B, rfl⟩
    rw [lineBody, lineNewline, if_neg h1, if_neg h1, if_pos h2, if_pos h2,
      List.dropLast_concat]
    exact ⟨rfl, rfl⟩
  · have h1 : ['\r', '\n'].isSuffixOf (B ++ ['\r', '\n']) = true := by
      rw [List.isSuffixOf_iff_suffix]
      exact ⟨B, rfl⟩
    rw [lineBody, lineNewline, if_pos h1, if_pos h1]
    refine ⟨?_, rfl⟩
    rw [show B ++ ['\r', '\n'] = (B ++ ['\r']) ++ ['\n'] by simp]
    rw [List.dropLast_concat, List.dropLast_concat]

theorem lstripWs_eq_self (l : List Char)
    (h : ∀ c, l.head? = some c → isPyWs c = false) : lstripWs l = l := by
  cases l with
  | nil => rfl
  | cons x xs =>
    rw [lstripWs, List.dropWhile_cons, if_neg (by simp [h x rfl])]

theorem rstripWs_eq_self (l : List Char)
    (h : ∀ c, l.getLast? = some c → isPyWs c = false) : rstripWs l = l := by
  rw [rstripWs]
  have hd : l.reverse.dropWhile isPyWs = l.reverse := by
    cases hrev : l.reverse with
    | nil => rfl
    | cons x xs =>
      rw [List.dropWhile_cons, if_neg]
      have hx : l.getLast? = some x := by
        rw [← List.head?_reverse, hrev]
        rfl
      simp [h x hx]
  rw [hd, List.reverse_reverse]

theorem stripWs_eq_self (l : List Char)
    (h1 : ∀ c, l.head? = some c → isPyWs c = false)
    (h2 : ∀ c, l.getLast? = some c → isPyWs c = false) : stripWs l = l := by
  rw [stripWs, lstripWs_eq_self l h1, rstripWs_eq_self l h2]

theorem dropWhile_sp_append (a b : List Char) (hb : ∀ c ∈ b, (c == ' ') = true) :
    (a ++ b).reverse.dropWhile (· == ' ') = a.reverse.dropWhile (· == ' ') := by
  rw [List.reverse_append, List.dropWhile_append]
  split
  · rfl
  · rename_i hemp
    exfalso
    apply hemp
    rw [List.dropWhile_eq_nil_iff.mpr]
    · simp
    · intro c hc
      exact hb c (List.mem_reverse.mp hc)

theorem rstripSp_append_sp (a b : List Char) (hb : ∀ c ∈ b, (c == ' ') = true) :
    rstripSp (a ++ b) = rstripSp a := by
  rw [rstripSp, rstripSp, dropWhile_sp_append a b hb]

theorem rstripSp_eq_self (l : List Char)
    (h : ∀ c, l.getLast? = some c → (c == ' ') = false) : rstripSp l = l := by
  rw [rstripSp]
  have hd : l.reverse.dropWhile (· == ' ') = l.reverse := by
    cases hrev : l.reverse with
    | nil => rfl
    | cons x xs =>
      rw [List.dropWhile_cons, if_neg]
      have hx : l.getLast? = some x := by
        rw [← List.head?_reverse, hrev]
        rfl
      simp only [h x hx]
      simp
  rw [hd, List.reverse_reverse]

theorem takeWhile_append_all (p : Char → Bool) (a b : List Char)
    (ha : ∀ x ∈ a, p x = true) (hb : ∀ c, b.head? = some c → p c = false) :
    (a ++ b).takeWhile p = a ∧ (a ++ b).dropWhile p = b := by
  induction a with
  | nil =>
    constructor
    · cases b with
      | nil => rfl
      | cons x xs =>
        rw [List.nil_append, List.takeWhile_cons, if_neg (by simp [hb x rfl])]
    · cases b with
      | nil => rfl
      | cons x xs =>
        rw [List.nil_append, List.dropWhile_cons, if_neg (by simp [hb x rfl])]
  | cons x a' ih =>
    have hx := ha x (by simp)
    obtain ⟨ih1, ih2⟩ := ih (fun y hy => ha y (List.mem_cons_of_mem _ hy))
    constructor
    · rw [List.cons_append, List.takeWhile_cons, if_pos (by simp [hx]), ih1]
    · rw [List.cons_append, List.dropWhile_cons, if_pos (by simp [hx]), ih2]

theorem space_beq_of_ws_false (c : Char) (h : isPyWs c = false) : (c == ' ') = false := by
  cases hbeq : c == ' '
  · rfl
  · obtain rfl : c = ' ' := by simpa using hbeq
    exact absurd h (by decide)

theorem ws_of_space_beq (c : Char) (h : (c == ' ') = true) : isPyWs c = true := by
  obtain rfl : c = ' ' := by simpa using h
  rfl

theorem break_false_of_ws_false (c : Char) (h : isPyWs c = false) :
    isPyLineBreak c = false := by
  cases hbr : isPyLineBreak c
  · rfl
  · exact absurd (isPyLineBreak_ws c hbr) (by simp [h])

theorem head?_append_colon (K a b : List Char) :
    (K ++ ':' :: a).head? = (K ++ ':' :: b).head? := by
  cases K <;> rfl

/-- A line ending in a single character other than `'\n'` has no recognised
terminator in `rewrite_line`'s sense (which checks only `"\r\n"` and
`"\n"` suffixes). -/
theorem lineNewline_exotic (b : List Char) (c : Char) (hc : c ≠ '\n') :
    lineNewline (b ++ [c]) = [] := by
  have h2 : ¬ (['\n'].isSuffixOf (b ++ [c]) = true) := by
    rw [single_isSuffixOf_iff, List.getLast?_concat]
    intro h
    exact hc (Option.some.inj h)
  have h1 : ¬ (['\r', '\n'].isSuffixOf (b ++ [c]) = true) := by
    rw [List.isSuffixOf_iff_suffix]
    rintro ⟨pre, hpre⟩
    have h' := congrArg List.getLast? hpre
    rw [List.getLast?_concat,
      show pre ++ ['\r', '\n'] = (pre ++ ['\r']) ++ ['\n'] by simp,
      List.getLast?_concat] at h'
    exact hc (Option.some.inj h').symm
  rw [lineNewline, if_neg h1, if_neg h2]

/-- How the shape extractors evaluate on the output of `rewrite_line`: the
rewritten line has the same key, padding, quote style, trailing spaces,
comment flag/text and terminator as the original, with the quoted new
value as its value token; moreover its body is linebreak-free, its first
character agrees with the original's and it is nonempty. -/
theorem rewrite_line_extractors (L v : List Char)
    (hcolon : lineHasColon L = true)
    (hbody : breakFree (lineBody L))
    (hv1 : v ≠ []) (hv2 : ∀ c ∈ v, isPyWs c = false) (hv3 : '#' ∉ v)
    (hv4 : '"' ∉ v) (hv5 : '\'' ∉ v) :
    lineNewline (rewrite_line L v) = lineNewline L ∧
    lineHasColon (rewrite_line L v) = true ∧
    lineKey (rewrite_line L v) = lineKey L ∧
    lineValPad (rewrite_line L v) = lineValPad L ∧
    lineQuote (rewrite_line L v) = lineQuote L ∧
    lineValTail (rewrite_line L v) = lineValTail L ∧
    lineSep (rewrite_line L v) = lineSep L ∧
    lineComment (rewrite_line L v) = lineComment L ∧
    breakFree (lineBody (rewrite_line L v)) ∧
    (rewrite_line L v).head? = L.head? ∧
    rewrite_line L v ≠ [] := by
  -- Memberships of the original components in the original body.
  have hBCmem : ∀ x ∈ lineBeforeComment L, x ∈ lineBody L := fun x hx =>
    mem_partitionAt_fst hx
  have hKmem : ∀ x ∈ lineKey L, x ∈ lineBody L := fun x hx =>
    hBCmem x (mem_partitionAt_fst hx)
  have hVPmem : ∀ x ∈ lineValPart L, x ∈ lineBody L := fun x hx =>
    hBCmem x (mem_partitionAt_snd hx)
  have hPmem : ∀ x ∈ lineValPad L, x ∈ lineBody L := fun x hx =>
    hVPmem x ((List.takeWhile_sublist _).subset hx)
  have hCoremem : ∀ x ∈ lineValCore L, x ∈ lineBody L := fun x hx =>
    hVPmem x ((List.dropWhile_sublist _).subset hx)
  have hTmem : ∀ x ∈ lineValTail L, x ∈ lineBody L := fun x hx =>
    hCoremem x ((List.drop_sublist _ _).subset hx)
  have hCmtmem : ∀ x ∈ lineComment L, x ∈ lineBody L := fun x hx =>
    mem_partitionAt_snd hx
  have hPsp : ∀ x ∈ lineValPad L, (x == ' ') = true := by
    intro x hx
    rw [lineValPad] at hx
    exact List.mem_takeWhile_imp (p := fun c => c == ' ') hx
  -- The trailing-space run of the value core.
  obtain ⟨w, hw, hwsp⟩ := rstripSp_recon (lineValCore L)
  have hT : lineValTail L = w := by
    have hdrop := congrArg (List.drop (rstripSp (lineValCore L)).length) hw
    rw [List.drop_left] at hdrop
    rw [lineValTail]
    exact hdrop
  have hTsp : ∀ x ∈ lineValTail L, (x == ' ') = true := by
    rw [hT]; exact hwsp
  -- The quoted value block.
  have hQbf : ∀ x ∈ lineQuote L, isPyLineBreak x = false := by
    rcases lineQuote_cases L with hQ | hQ | hQ <;> rw [hQ] <;> intro x hx <;>
      simp at hx
    · subst hx; decide
    · subst hx; decide
  have hvbf : ∀ x ∈ v, isPyLineBreak x = false := fun x hx =>
    break_false_of_ws_false x (hv2 x hx)
  have hQvQne : lineQuote L ++ v ++ lineQuote L ≠ [] := by
    simp [hv1]
  -- The head of the value block is never whitespace, never '#'.
  have hheadfacts : ∃ c, (lineQuote L ++ v ++ lineQuote L).head? = some c ∧
      isPyWs c = false ∧ c ≠ '#' := by
    rcases lineQuote_cases L with hQ | hQ | hQ
    · cases v with
      | nil => exact absurd rfl hv1
      | cons v0 vr =>
        refine ⟨v0, by rw [hQ]; rfl, hv2 v0 (by simp), fun hc => hv3 (by simp [hc])⟩
    · exact ⟨'"', by rw [hQ]; rfl, by decide, by decide⟩
    · exact ⟨'\'', by rw [hQ]; rfl, by decide, by decide⟩
  have hlastfacts : ∃ c, (lineQuote L ++ v ++ lineQuote L).getLast? = some c ∧
      isPyWs c = false := by
    rcases lineQuote_cases L with hQ | hQ | hQ
    · cases v with
      | nil => exact absurd rfl hv1
      | cons v0 vr =>
        refine ⟨(v0 :: vr).getLast (by simp), ?_, ?_⟩
        · rw [hQ]
          simp [List.getLast?_eq_getLast (v0 :: vr) (by simp)]
        · exact hv2 _ (List.getLast_mem _)
    · refine ⟨'"', ?_, by decide⟩
      rw [hQ, show ['"'] ++ v ++ ['"'] = (['"'] ++ v) ++ ['"'] by simp,
        List.getLast?_concat]
    · refine ⟨'\'', ?_, by decide⟩
      rw [hQ, show ['\''] ++ v ++ ['\''] = (['\''] ++ v) ++ ['\''] by simp,
        List.getLast?_concat]
  -- The rewritten line as body plus terminator.
  have hM : rewrite_line L v =
      (lineKey L ++ ':' :: (lineValPad L ++ ((lineQuote L ++ v ++ lineQuote L) ++
        (lineValTail L ++ (if lineSep L then '#' :: lineComment L else []))))) ++
        lineNewline L := by
    rw [rewrite_line_eq L v hcolon]
    simp
  have hbodyM : breakFree (lineKey L ++ ':' :: (lineValPad L ++
      ((lineQuote L ++ v ++ lineQuote L) ++
        (lineValTail L ++ (if lineSep L then '#' :: lineComment L else []))))) := by
    intro x hx
    simp only [List.mem_append, List.mem_cons] at hx
    rcases hx with hx | hx | hx | hx | hx | hx
    · exact hbody x (hKmem x hx)
    · subst hx; decide
    · exact hbody x (hPmem x hx)
    · rcases hx with (hx | hx) | hx
      · exact hQbf x hx
      · exact hvbf x hx
      · exact hQbf x hx
    · exact hbody x (hTmem x hx)
    · split at hx
      · rcases List.mem_cons.mp hx with rfl | hx
        · decide
        · exact hbody x (hCmtmem x hx)
      · simp at hx
  obtain ⟨hBM, hNM⟩ := lineBody_of_breakFree_append _ (lineNewline L) hbodyM
    (lineNewline_cases L)
  rw [← hM] at hBM hNM
  -- The '#' partition of the rewritten body.
  have hHashBefore : '#' ∉ lineBeforeComment L := not_mem_partitionAt_fst '#' _
  have hHashA : '#' ∉ lineKey L ++ ':' :: (lineValPad L ++
      ((lineQuote L ++ v ++ lineQuote L) ++ lineValTail L)) := by
    intro hx
    simp only [List.mem_append, List.mem_cons] at hx
    rcases hx with hx | hx | hx | hx | hx
    · exact hHashBefore (mem_partitionAt_fst hx)
    · exact absurd hx.symm (by decide)
    · exact hHashBefore (mem_partitionAt_snd ((List.takeWhile_sublist _).subset hx))
    · rcases hx with (hx | hx) | hx
      · rcases lineQuote_cases L with hQ | hQ | hQ <;> rw [hQ] at hx <;> simp at hx
      · exact hv3 hx
      · rcases lineQuote_cases L with hQ | hQ | hQ <;> rw [hQ] at hx <;> simp at hx
    · rw [lineValTail] at hx
      have hx2 : '#' ∈ lineValCore L := (List.drop_sublist _ _).subset hx
      rw [lineValCore] at hx2
      have hx3 : '#' ∈ lineValPart L := (List.dropWhile_sublist _).subset hx2
      rw [lineValPart] at hx3
      exact hHashBefore (mem_partitionAt_snd hx3)
  have hpart : partitionAt '#' (lineBody (rewrite_line L v)) =
      (lineKey L ++ ':' :: (lineValPad L ++ ((lineQuote L ++ v ++ lineQuote L) ++
        lineValTail L)), lineSep L, lineComment L) := by
    rw [hBM]
    by_cases hsep : lineSep L = true
    · rw [hsep, if_pos rfl]
      rw [show lineKey L ++ ':' :: (lineValPad L ++ ((lineQuote L ++ v ++ lineQuote L) ++
          (lineValTail L ++ ('#' :: lineComment L)))) =
        (lineKey L ++ ':' :: (lineValPad L ++ ((lineQuote L ++ v ++ lineQuote L) ++
          lineValTail L))) ++ '#' :: lineComment L by simp]
      exact partitionAt_append '#' _ _ hHashA
    · have hsep' : lineSep L = false := by simpa using hsep
      have hcmt : lineComment L = [] := by
        have := partitionAt_not_found '#' (lineBody L) hsep'
        rw [lineComment, this]
      rw [hsep', if_neg (by simp), hcmt]
      rw [show lineKey L ++ ':' :: (lineValPad L ++ ((lineQuote L ++ v ++ lineQuote L) ++
          (lineValTail L ++ []))) =
        lineKey L ++ ':' :: (lineValPad L ++ ((lineQuote L ++ v ++ lineQuote L) ++
          lineValTail L)) by simp]
      exact partitionAt_no '#' _ hHashA
  have hBCM : lineBeforeComment (rewrite_line L v) =
      lineKey L ++ ':' :: (lineValPad L ++ ((lineQuote L ++ v ++ lineQuote L) ++
        lineValTail L)) := by
    rw [lineBeforeComment, hpart]
  have hSepM : lineSep (rewrite_line L v) = lineSep L := by
    rw [lineSep, hpart]
  have hCmtM : lineComment (rewrite_line L v) = lineComment L := by
    rw [lineComment, hpart]
  -- The ':' partition of the rewritten pre-comment part.
  have hColonK : ':' ∉ lineKey L := not_mem_partitionAt_fst ':' _
  have hpart2 : partitionAt ':' (lineBeforeComment (rewrite_line L v)) =
      (lineKey L, true, lineValPad L ++ ((lineQuote L ++ v ++ lineQuote L) ++
        lineValTail L)) := by
    rw [hBCM]
    exact partitionAt_append ':' _ _ hColonK
  have hColonM : lineHasColon (rewrite_line L v) = true := by
    rw [lineHasColon, hpart2]
  have hKeyM : lineKey (rewrite_line L v) = lineKey L := by
    rw [lineKey, hpart2]
  have hVPM : lineValPart (rewrite_line L v) =
      lineValPad L ++ ((lineQuote L ++ v ++ lineQuote L) ++ lineValTail L) := by
    rw [lineValPart, hpart2]
  -- Splitting the padding off the new value part.
  obtain ⟨c0, hc0, hc0ws, -⟩ := hheadfacts
  have hheadQT : ∀ c, ((lineQuote L ++ v ++ lineQuote L) ++ lineValTail L).head? = some c →
      (c == ' ') = false := by
    intro c hc
    have : ((lineQuote L ++ v ++ lineQuote L) ++ lineValTail L).head? = some c0 := by
      cases hq : lineQuote L ++ v ++ lineQuote L with
      | nil => exact absurd hq hQvQne
      | cons a t =>
        rw [hq] at hc0
        simp at hc0 ⊢
        exact hc0
    rw [this] at hc
    obtain rfl : c0 = c := Option.some.inj hc
    exact space_beq_of_ws_false _ hc0ws
  obtain ⟨htw, hdw⟩ := takeWhile_append_all (· == ' ') (lineValPad L)
    ((lineQuote L ++ v ++ lineQuote L) ++ lineValTail L) hPsp hheadQT
  have hPadM : lineValPad (rewrite_line L v) = lineValPad L := by
    rw [lineValPad, hVPM]
    exact htw
  have hCoreM : lineValCore (rewrite_line L v) =
      (lineQuote L ++ v ++ lineQuote L) ++ lineValTail L := by
    rw [lineValCore, hVPM]
    exact hdw
  -- The trailing-space split of the rewritten core.
  obtain ⟨cl, hcl, hclws⟩ := hlastfacts
  have hrsp : rstripSp ((lineQuote L ++ v ++ lineQuote L) ++ lineValTail L) =
      lineQuote L ++ v ++ lineQuote L := by
    rw [rstripSp_append_sp _ _ hTsp]
    exact rstripSp_eq_self _ (fun c hc => by
      rw [hcl] at hc
      obtain rfl : cl = c := Option.some.inj hc
      exact space_beq_of_ws_false _ hclws)
  have hTailM : lineValTail (rewrite_line L v) = lineValTail L := by
    rw [lineValTail, hCoreM, hrsp, List.drop_left]
  -- The stripped rewritten core is exactly the quoted value.
  have hstrip : stripWs (lineValCore (rewrite_line L v)) =
      lineQuote L ++ v ++ lineQuote L := by
    rw [hCoreM, stripWs_append_ws _ _ (fun c hc => ws_of_space_beq c (hTsp c hc))]
    exact stripWs_eq_self _
      (fun c hc => by
        rw [hc0] at hc
        obtain rfl : c0 = c := Option.some.inj hc
        exact hc0ws)
      (fun c hc => by
        rw [hcl] at hc
        obtain rfl : cl = c := Option.some.inj hc
        exact hclws)
  -- Quote style is preserved.
  have hQuoteM : lineQuote (rewrite_line L v) = lineQuote L := by
    rcases lineQuote_cases L with hQ | hQ | hQ
    · -- no quotes: the value itself starts and ends without quote chars
      cases v with
      | nil => exact absurd rfl hv1
      | cons v0 vr =>
        have hv0 : ([] : List Char) ++ (v0 :: vr) ++ [] = v0 :: vr := by simp
        rw [lineQuote, hstrip, hQ, hv0]
        have hq1 : ¬ (['"'].isPrefixOf (v0 :: vr) = true) := by
          rw [single_isPrefixOf_iff]
          intro hcon
          obtain rfl : v0 = '"' := by simpa using hcon
          exact hv4 (by simp)
        have hq2 : ¬ (['\''].isPrefixOf (v0 :: vr) = true) := by
          rw [single_isPrefixOf_iff]
          intro hcon
          obtain rfl : v0 = '\'' := by simpa using hcon
          exact hv5 (by simp)
        rw [if_neg (by simp [hq1]), if_neg (by simp [hq2])]
    · rw [lineQuote, hstrip, hQ]
      have hp : ['"'].isPrefixOf (['"'] ++ v ++ ['"']) = true := by
        rw [single_isPrefixOf_iff]
        rfl
      have hs : ['"'].isSuffixOf (['"'] ++ v ++ ['"']) = true := by
        rw [single_isSuffixOf_iff,
          show ['"'] ++ v ++ ['"'] = (['"'] ++ v) ++ ['"'] by simp, List.getLast?_concat]
      rw [if_pos (by rw [hp, hs]; rfl)]
    · rw [lineQuote, hstrip, hQ]
      have hp1 : ['"'].isPrefixOf (['\''] ++ v ++ ['\'']) = false := rfl
      have hp : ['\''].isPrefixOf (['\''] ++ v ++ ['\'']) = true := by
        rw [single_isPrefixOf_iff]
        rfl
      have hs : ['\''].isSuffixOf (['\''] ++ v ++ ['\'']) = true := by
        rw [single_isSuffixOf_iff,
          show ['\''] ++ v ++ ['\''] = (['\''] ++ v) ++ ['\''] by simp, List.getLast?_concat]
      rw [if_neg (by rw [hp1]; simp), if_pos (by rw [hp, hs]; rfl)]
  have hbfM : breakFree (lineBody (rewrite_line L v)) := by
    rw [hBM]
    exact hbodyM
  have hheadM : (rewrite_line L v).head? = L.head? := by
    rw [rewrite_line_eq L v hcolon]
    conv_rhs => rw [line_recon L hcolon]
    exact head?_append_colon _ _ _
  have hMne : rewrite_line L v ≠ [] := by
    rw [rewrite_line_eq L v hcolon]
    cases lineKey L <;> simp
  exact ⟨hNM, hColonM, hKeyM, hPadM, hQuoteM, hTailM, hSepM, hCmtM, hbfM, hheadM, hMne⟩

/-- Rewriting an already-rewritten line with the same value changes
nothing. -/
theorem rewrite_line_idem (L v : List Char)
    (hcolon : lineHasColon L = true)
    (hbody : breakFree (lineBody L))
    (hv1 : v ≠ []) (hv2 : ∀ c ∈ v, isPyWs c = false) (hv3 : '#' ∉ v)
    (hv4 : '"' ∉ v) (hv5 : '\'' ∉ v) :
    rewrite_line (rewrite_line L v) v = rewrite_line L v := by
  obtain ⟨hNM, hColonM, hKeyM, hPadM, hQuoteM, hTailM, hSepM, hCmtM, -, -, -⟩ :=
    rewrite_line_extractors L v hcolon hbody hv1 hv2 hv3 hv4 hv5
  rw [rewrite_line_eq (rewrite_line L v) v hColonM, hKeyM, hPadM, hQuoteM, hTailM,
    hSepM, hCmtM, hNM]
  exact (rewrite_line_eq L v hcolon).symm

/-- C4: on the in-place rewrite path, `update_config_incremental` is
idempotent.  The first call succeeds; the file afterwards holds the join
of the rewritten line list (unchanged when that join equals the original
text, so `written` records at most that one whole-file state); and a
second call on the resulting text — with the re-parsed data locating the
same line — returns `True` and performs zero byte changes: the recomputed
text is recognised as identical and no write occurs. -/
theorem update_config_idempotent (raw : List Char) (parsed parsed' : Option PyVal)
    (cfg : Config) (v : List Char) (i : Nat)
    (hloc : locatedIncIdx raw parsed cfg v = some i)
    (hterm : lineNewline ((pySplitlinesKeep raw).getD i []) ≠ [] ∨
      breakFree ((pySplitlinesKeep raw).getD i []))
    (hv1 : v ≠ []) (hv2 : ∀ c ∈ v, isPyWs c = false) (hv3 : '#' ∉ v)
    (hv4 : '"' ∉ v) (hv5 : '\'' ∉ v)
    (hloc' : locatedIncIdx
        (((pySplitlinesKeep raw).set i
          (rewrite_line ((pySplitlinesKeep raw).getD i []) v)).flatten)
        parsed' cfg v = some i) :
    (update_config_incremental raw parsed cfg v).ok = true ∧
    (((update_config_incremental raw parsed cfg v).written = Option.none ∧
        ((pySplitlinesKeep raw).set i
          (rewrite_line ((pySplitlinesKeep raw).getD i []) v)).flatten = raw) ∨
      (update_config_incremental raw parsed cfg v).written =
        some (((pySplitlinesKeep raw).set i
          (rewrite_line ((pySplitlinesKeep raw).getD i []) v)).flatten)) ∧
    update_config_incremental
        (((pySplitlinesKeep raw).set i
          (rewrite_line ((pySplitlinesKeep raw).getD i []) v)).flatten)
        parsed' cfg v = { ok := true, written := Option.none } := by
  obtain ⟨hlen, hsw, hupd⟩ := locatedIncIdx_spec raw parsed cfg v i hloc
  have hcolon := startsWith_incremental_colon _ hsw
  have hwf := wfLines_pySplitlinesKeep raw
  obtain ⟨hLne, hcase⟩ := wfLines_getD (pySplitlinesKeep raw) i hwf hlen
  have hbody : breakFree (lineBody ((pySplitlinesKeep raw).getD i [])) := by
    rcases hcase with ⟨b, t, hbt, hbf, htc⟩ | ⟨hdrop, hbf⟩
    · rcases htc with rfl | ⟨c, rfl, hcbrk, hcr⟩
      · obtain ⟨h1, -⟩ := lineBody_of_breakFree_append b ['\r', '\n'] hbf
          (Or.inr (Or.inr rfl))
        rw [hbt, h1]
        exact hbf
      · by_cases hcn : c = '\n'
        · subst hcn
          obtain ⟨h1, -⟩ := lineBody_of_breakFree_append b ['\n'] hbf
            (Or.inr (Or.inl rfl))
          rw [hbt, h1]
          exact hbf
        · exfalso
          rcases hterm with hterm | hterm
          · exact hterm (by rw [hbt]; exact lineNewline_exotic b c hcn)
          · exact absurd (hterm c (by rw [hbt]; simp)) (by simp [hcbrk])
    · obtain ⟨h1, -⟩ := lineBody_of_breakFree_append ((pySplitlinesKeep raw).getD i []) []
        hbf (Or.inl rfl)
      rw [List.append_nil] at h1
      rw [h1]
      exact hbf
  obtain ⟨hNM, hColonM, -, -, -, -, -, -, hbfM, hheadM, hMne⟩ :=
    rewrite_line_extractors ((pySplitlinesKeep raw).getD i []) v hcolon hbody
      hv1 hv2 hv3 hv4 hv5
  have hslotM : termedLine (rewrite_line ((pySplitlinesKeep raw).getD i []) v)
        (((pySplitlinesKeep raw).drop (i + 1)).flatten) ∨
      ((pySplitlinesKeep raw).drop (i + 1) = [] ∧
        breakFree (rewrite_line ((pySplitlinesKeep raw).getD i []) v)) := by
    rcases hcase with ⟨b, t, hbt, hbf, htc⟩ | ⟨hdrop, hbf⟩
    · left
      refine ⟨lineBody (rewrite_line ((pySplitlinesKeep raw).getD i []) v),
        lineNewline (rewrite_line ((pySplitlinesKeep raw).getD i []) v),
        (lineBody_newline_recon _).symm, hbfM, ?_⟩
      rcases htc with rfl | ⟨c, rfl, hcbrk, hcr⟩
      · left
        rw [hNM, hbt]
        obtain ⟨-, h2⟩ := lineBody_of_breakFree_append b ['\r', '\n'] hbf
          (Or.inr (Or.inr rfl))
        exact h2
      · by_cases hcn : c = '\n'
        · subst hcn
          right
          refine ⟨'\n', ?_, by decide, by intro h; exact absurd h (by decide)⟩
          rw [hNM, hbt]
          obtain ⟨-, h2⟩ := lineBody_of_breakFree_append b ['\n'] hbf
            (Or.inr (Or.inl rfl))
          exact h2
        · exfalso
          rcases hterm with hterm | hterm
          · exact hterm (by rw [hbt]; exact lineNewline_exotic b c hcn)
          · exact absurd (hterm c (by rw [hbt]; simp)) (by simp [hcbrk])
    · right
      refine ⟨hdrop, ?_⟩
      have h0 : lineNewline ((pySplitlinesKeep raw).getD i []) = [] := by
        obtain ⟨-, h2⟩ := lineBody_of_breakFree_append ((pySplitlinesKeep raw).getD i [])
          [] hbf (Or.inl rfl)
        rwa [List.append_nil] at h2
      have hrec := lineBody_newline_recon (rewrite_line ((pySplitlinesKeep raw).getD i []) v)
      rw [hNM, h0, List.append_nil] at hrec
      rw [← hrec]
      exact hbfM
  have hwf' : wfLines ((pySplitlinesKeep raw).set i
      (rewrite_line ((pySplitlinesKeep raw).getD i []) v)) :=
    wfLines_set _ i _ hwf hlen hMne hheadM hslotM
  have hsplit' : pySplitlinesKeep (((pySplitlinesKeep raw).set i
        (rewrite_line ((pySplitlinesKeep raw).getD i []) v)).flatten) =
      (pySplitlinesKeep raw).set i (rewrite_line ((pySplitlinesKeep raw).getD i []) v) :=
    split_join_wf _ hwf'
  obtain ⟨-, -, hupd'⟩ := locatedIncIdx_spec _ parsed' cfg v i hloc'
  rw [hsplit'] at hupd'
  have hgd : ((pySplitlinesKeep raw).set i
        (rewrite_line ((pySplitlinesKeep raw).getD i []) v)).getD i [] =
      rewrite_line ((pySplitlinesKeep raw).getD i []) v := by
    rw [List.getD_eq_getElem?_getD, List.getElem?_set_self (by simpa using hlen),
      Option.getD_some]
  rw [hgd, rewrite_line_idem _ v hcolon hbody hv1 hv2 hv3 hv4 hv5, List.set_set] at hupd'
  refine ⟨?_, ?_, ?_⟩
  · rw [hupd]
    exact updFinish_ok _ _
  · rw [hupd, updFinish]
    by_cases hsame : ((pySplitlinesKeep raw).set i
        (rewrite_line ((pySplitlinesKeep raw).getD i []) v)).flatten = raw
    · rw [if_pos hsame]
      exact Or.inl ⟨rfl, hsame⟩
    · rw [if_neg hsame]
      exact Or.inr rfl
  · rw [hupd', updFinish, if_pos rfl]

/-- Witness for C4 on a single-identity document: the first call rewrites
the top-level `incremental` line to `"222"` and writes the new text; the
second call on that text recomputes an identical text and performs no
write. -/
theorem update_config_idempotent_witness :
    (update_config_incremental sampleRawTop sampleParsedTop sampleCfg "222".toList).ok =
      true ∧
    (((update_config_incremental sampleRawTop sampleParsedTop sampleCfg
            "222".toList).written = Option.none ∧
        ((pySplitlinesKeep sampleRawTop).set 1
          (rewrite_line ((pySplitlinesKeep sampleRawTop).getD 1 []) "222".toList)).flatten =
          sampleRawTop) ∨
      (update_config_incremental sampleRawTop sampleParsedTop sampleCfg
          "222".toList).written =
        some (((pySplitlinesKeep sampleRawTop).set 1
          (rewrite_line ((pySplitlinesKeep sampleRawTop).getD 1 []) "222".toList)).flatten)) ∧
    update_config_incremental
        (((pySplitlinesKeep sampleRawTop).set 1
          (rewrite_line ((pySplitlinesKeep sampleRawTop).getD 1 []) "222".toList)).flatten)
        sampleParsedTopAfter sampleCfg "222".toList =
      { ok := true, written := Option.none } :=
  update_config_idempotent sampleRawTop sampleParsedTop sampleParsedTopAfter sampleCfg
    "222".toList 1 (by decide) (Or.inl (by decide)) (by decide) (by decide)
    (by decide) (by decide) (by decide) (by decide)

set_option maxHeartbeats 2000000 in
theorem variant_exit_le_one (a : Args) (env : VariantEnv) :
    (process_config_variant a env).exit ≤ 1 := by
  simp only [process_config_variant]
  repeat' split
  all_goals simp [noFx, variantTail]

theorem process_config_go_fst (envs : List VariantEnv) :
    ∀ (a : Args) (acc : Nat),
      (process_config_go a envs acc).1 = (variantExits a envs).foldl max acc := by
  induction envs with
  | nil =>
    intro a acc
    rfl
  | cons env rest ih =>
    intro a acc
    rw [process_config_go, variantExits, List.foldl_cons]
    exact ih _ _

theorem main_go_eq (cs : List (Option (List VariantEnv))) :
    ∀ (a : Args) (acc : Nat),
      main_go a cs acc = (configExits a cs).foldl max acc := by
  induction cs with
  | nil =>
    intro a acc
    rfl
  | cons c rest ih =>
    intro a acc
    rw [main_go, configExits, List.foldl_cons]
    exact ih _ _

theorem variantExits_le_one (envs : List VariantEnv) :
    ∀ (a : Args), ∀ e ∈ variantExits a envs, e ≤ 1 := by
  induction envs with
  | nil =>
    intro a e he
    simp [variantExits] at he
  | cons env rest ih =>
    intro a e he
    rw [variantExits] at he
    rcases List.mem_cons.mp he with rfl | he
    · exact variant_exit_le_one a env
    · exact ih _ e he

theorem foldl_max_le_one (l : List Nat) :
    ∀ acc, acc ≤ 1 → (∀ e ∈ l, e ≤ 1) → l.foldl max acc ≤ 1 := by
  induction l with
  | nil =>
    intro acc hacc _
    exact hacc
  | cons x xs ih =>
    intro acc hacc hl
    rw [List.foldl_cons]
    exact ih _ (max_le hacc (hl x (by simp))) (fun e he => hl e (by simp [he]))

theorem process_config_fst_le_one (a : Args) (cfgs : Option (List VariantEnv)) :
    (process_config a cfgs).1 ≤ 1 := by
  cases cfgs with
  | none => exact Nat.le_refl 1
  | some envs =>
    rw [process_config]
    split
    · exact Nat.le_refl 1
    · rw [process_config_go_fst]
      exact foldl_max_le_one _ 0 (by omega) (variantExits_le_one envs a)

theorem configExits_le_one (cs : List (Option (List VariantEnv))) :
    ∀ (a : Args), ∀ e ∈ configExits a cs, e ≤ 1 := by
  induction cs with
  | nil =>
    intro a e he
    simp [configExits] at he
  | cons c rest ih =>
    intro a e he
    rw [configExits] at he
    rcases List.mem_cons.mp he with rfl | he
    · exact process_config_fst_le_one a c
    · exact ih _ e he

/-- C7: every per-target run exits with 0 or 1; the variant loop of
`process_config` folds the per-variant exit codes with `max` (after its
own guards, which yield 1), the config loop of `main` folds the per-config
codes with `max` (after its own guards), and so the process-wide exit code
is the maximum of the per-target exit codes over all configuration files
and variants processed. -/
theorem exit_code_max_fold (a : Args) (env : VariantEnv)
    (envs : List VariantEnv) (cs : List (Option (List VariantEnv))) :
    (process_config_variant a env).exit ≤ 1 ∧
    (process_config a Option.none).1 = 1 ∧
    (process_config a (some envs)).1 =
      (if a.incremental.isSome && (envs.length != 1) then 1
       else (variantExits a envs).foldl max 0) ∧
    (∀ e ∈ variantExits a envs, e ≤ 1) ∧
    checkota_main a Option.none = 1 ∧
    checkota_main a (some cs) =
      (if a.incremental.isSome && (cs.length != 1) then 1
       else (configExits a cs).foldl max 0) ∧
    (∀ e ∈ configExits a cs, e ≤ 1) := by
  refine ⟨variant_exit_le_one a env, rfl, ?_, variantExits_le_one envs a, rfl, ?_,
    configExits_le_one cs a⟩
  · rw [process_config]
    split
    · rfl
    · exact process_config_go_fst envs a 0
  · rw [checkota_main]
    split
    · rfl
    · exact main_go_eq cs a 0

/-- C1: in a run where an update is detected (essential fields present),
its metadata is extracted, the target fingerprint is verified new, and a
Telegram notification is attempted (credentials present, not skipped, not
register-only, not dry-run), the state file gains the fingerprint exactly
when `TgNotify.send` succeeds: on failure the run exits 1 with the state
file untouched (and no release or commit is attempted), so the update is
reconsidered on the next run; on success it exits 0 with the fingerprint
saved. -/
theorem send_failure_blocks_state (a : Args) (env : VariantEnv) (d : CheckData)
    (m : OtaMeta)
    (hskip : a.skip_telegram = false) (hreg : a.register_fingerprint = false)
    (hdry : a.dry_run = false) (htg : env.tgAvailable = true)
    (hc : env.check = some d)
    (hd : (d.title.isEmpty || d.url.isEmpty || d.size.isEmpty) = false)
    (hm : env.otaMeta = some m) (hfp : m.fingerprint.isEmpty = false)
    (hnew : env.processedFps.contains m.fingerprint = false) :
    (process_config_variant a env).tgSent = true ∧
    ((process_config_variant a env).fpSaved = true ↔ env.sendOk = true) ∧
    (env.sendOk = false →
      (process_config_variant a env).exit = 1 ∧
      (process_config_variant a env).fpSaved = false ∧
      (process_config_variant a env).releaseAttempted = false ∧
      (process_config_variant a env).commitAttempted = false) ∧
    (env.sendOk = true →
      (process_config_variant a env).exit = 0 ∧
      (process_config_variant a env).fpSaved = true) := by
  have hnew' : m.fingerprint ∉ env.processedFps := by
    intro hmem
    rw [List.contains, List.elem_eq_true_of_mem hmem] at hnew
    simp at hnew
  cases hs : env.sendOk <;>
    simp [process_config_variant, hc, hm, hskip, hreg, hdry, htg, hfp, hnew, hnew', hd,
      hs, variantTail, noFx]

/-- Witness for C1: with a new update and a failing dispatch, the run sends,
exits 1, and saves nothing. -/
theorem send_failure_blocks_state_witness :
    (process_config_variant sampleArgsLive sampleEnvSendFail).tgSent = true ∧
    ((process_config_variant sampleArgsLive sampleEnvSendFail).fpSaved = true ↔
      sampleEnvSendFail.sendOk = true) ∧
    (sampleEnvSendFail.sendOk = false →
      (process_config_variant sampleArgsLive sampleEnvSendFail).exit = 1 ∧
      (process_config_variant sampleArgsLive sampleEnvSendFail).fpSaved = false ∧
      (process_config_variant sampleArgsLive sampleEnvSendFail).releaseAttempted = false ∧
      (process_config_variant sampleArgsLive sampleEnvSendFail).commitAttempted = false) ∧
    (sampleEnvSendFail.sendOk = true →
      (process_config_variant sampleArgsLive sampleEnvSendFail).exit = 0 ∧
      (process_config_variant sampleArgsLive sampleEnvSendFail).fpSaved = true) :=
  send_failure_blocks_state sampleArgsLive sampleEnvSendFail sampleCheckData sampleOtaMeta
    rfl rfl rfl rfl rfl (by decide) rfl (by decide) (by decide)

set_option maxHeartbeats 4000000 in
/-- C9: with the dry-run flag set, `process_config_variant` performs no
side effects: no config write attempt, no state-file append, no Telegram
dispatch, no release attempt, no commit attempt; and in the notification
scenario with a never-seen fingerprint it logs the intention to send and
the intention to save state instead. -/
theorem dry_run_no_side_effects (a : Args) (env : VariantEnv)
    (h : a.dry_run = true) :
    (process_config_variant a env).configWriteAttempted = false ∧
    (process_config_variant a env).fpSaved = false ∧
    (process_config_variant a env).tgSent = false ∧
    (process_config_variant a env).releaseAttempted = false ∧
    (process_config_variant a env).commitAttempted = false ∧
    (∀ d m, env.check = some d → env.otaMeta = some m →
      (d.title.isEmpty || d.url.isEmpty || d.size.isEmpty) = false →
      m.fingerprint.isEmpty = false →
      env.processedFps.contains m.fingerprint = false →
      a.skip_telegram = false → a.register_fingerprint = false →
      env.tgAvailable = true →
      IntentKind.sendTgIntent ∈ (process_config_variant a env).intents ∧
      IntentKind.saveFpIntent ∈ (process_config_variant a env).intents) := by
  cases hc : env.check with
  | none => simp [process_config_variant, hc, noFx]
  | some d =>
    cases hm : env.otaMeta with
    | none =>
      simp [process_config_variant, hc, hm, noFx]
    | some m =>
      simp only [process_config_variant, hc, hm, h]
      split_ifs <;> simp_all [variantTail, noFx, List.contains, List.elem_iff]
      all_goals try (split <;> simp)
      all_goals (intros; tauto)

/-- Witness for C9: the dry run performs no side effects and logs the
send/save intentions for the never-seen fingerprint. -/
theorem dry_run_no_side_effects_witness :
    (process_config_variant sampleArgsDry sampleEnvDry).configWriteAttempted = false ∧
    (process_config_variant sampleArgsDry sampleEnvDry).fpSaved = false ∧
    (process_config_variant sampleArgsDry sampleEnvDry).tgSent = false ∧
    (process_config_variant sampleArgsDry sampleEnvDry).releaseAttempted = false ∧
    (process_config_variant sampleArgsDry sampleEnvDry).commitAttempted = false ∧
    (∀ d m, sampleEnvDry.check = some d → sampleEnvDry.otaMeta = some m →
      (d.title.isEmpty || d.url.isEmpty || d.size.isEmpty) = false →
      m.fingerprint.isEmpty = false →
      sampleEnvDry.processedFps.contains m.fingerprint = false →
      sampleArgsDry.skip_telegram = false → sampleArgsDry.register_fingerprint = false →
      sampleEnvDry.tgAvailable = true →
      IntentKind.sendTgIntent ∈ (process_config_variant sampleArgsDry sampleEnvDry).intents ∧
      IntentKind.saveFpIntent ∈ (process_config_variant sampleArgsDry sampleEnvDry).intents) :=
  dry_run_no_side_effects sampleArgsDry sampleEnvDry rfl
